import Mathlib

/-!
Verification of the similarity-graph core of `spotify_objects.py`.

The Python source builds, from a list of tracks (each carrying six numeric
audio features), a similarity graph: features are normalized across the
collection, each node gets mutual edges to its two nearest other nodes
(Euclidean distance over the dimensions marked relevant), and a repair pass
connects any component that the depth-first traversal from the first node
did not reach.

Modelling conventions used throughout this file:

* Python floats are modelled by exact rationals (`ℚ`).  Every numeric step of
  the source (subtraction, division, squaring, comparison) is mirrored on `ℚ`.
* A Python exception (here only the unguarded `ZeroDivisionError` in
  `(track.loudness - max_loudness) / -max_loudness` when `max_loudness = 0`)
  is modelled by `Option`: `none` means the call raises, `some` is the normal
  return.
* Python `set` objects (`neighbours`, `visited`) are modelled as
  duplicate-free `List Nat` of node indices, grown with `addOnce` (membership
  test, then append), which matches `set.add` semantics exactly; node objects
  are identified with their position in `self.nodes`, which matches the
  source's reliance on object identity (`is not`, identity-keyed sets).
  Python's set iteration order is unspecified; the model iterates such sets
  in their insertion order.  Set order can only influence which node the
  repair pass picks among equally distant visited nodes; every property
  proved below is independent of that choice, and in the concrete scenarios
  used the repair pass has no distance ties.  (The k-nearest pass iterates
  the `self.nodes` list, not a set, so its tie-breaking by stable sort over
  list order is deterministic and is mirrored exactly.)
* The source sorts candidate lists with Python's stable `list.sort` keyed on
  the distance component; `sortByDist` is a stable insertion sort on the
  same key.
* `_distance` returns `math.sqrt` of the sum of squared differences, and is
  used by the source only as a sort key or to pick a minimum.  `Real.sqrt`
  is strictly monotone on nonnegative inputs, so selections by the square
  root and by the radicand coincide; the executable model `distSq` keeps the
  radicand, and the lemma `_distance_le_iff` below records the order
  equivalence against the noncomputable `_distance`.
* The `while to_visit:` loop of the depth-first traversal is modelled by
  `dfsGo` running on an explicit iteration budget `dfsFuel`, a potential
  that strictly decreases at every loop iteration; `dfsGo_fuel_congr`
  proves the result independent of any sufficient budget, so the fueled
  function is the loop's semantics.  The stack is kept most-recent-first,
  mirroring `list.pop()` from the back / `extend` at the back.
* `Track.__init__` fetches the feature values from the external Spotify
  client; that I/O layer is outside the verified core, so a `Track` here is
  the already-fetched record of identity fields and the six features.
-/

set_option linter.unusedVariables false

/-- A track record as built by `Track.__init__`: identity fields plus the six
audio features fetched from the catalog service. -/
structure Track where
  id : String
  uri : String
  name : String
  loudness : ℚ
  energy : ℚ
  instrumentalness : ℚ
  tempo : ℚ
  valence : ℚ
  danceability : ℚ
  deriving DecidableEq, Inhabited

/-- A node of the graph (`TrackNode`): the track, its six normalized feature
dimensions, and its set of neighbours, modelled as a duplicate-free list of
node indices into `TracksGraph.nodes`. -/
structure TrackNode where
  track : Track
  loudness_dimention : ℚ
  energy_dimention : ℚ
  instrumentalness_dimention : ℚ
  tempo_dimention : ℚ
  valence_dimention : ℚ
  danceability_dimention : ℚ
  neighbours : List Nat
  deriving DecidableEq, Inhabited

/-- The six relevance flags set in `TracksGraph.__init__`. -/
structure Mask where
  loudness_relevant : Bool
  energy_relevant : Bool
  instrumentalness_relevant : Bool
  tempo_relevant : Bool
  valence_relevant : Bool
  danceability_relevant : Bool
  deriving DecidableEq, Inhabited

/-- The relevance configuration hard-coded in `TracksGraph.__init__`
(lines 48-53): loudness, energy and tempo relevant, the rest not. -/
def defaultMask : Mask :=
  { loudness_relevant := true
    energy_relevant := true
    instrumentalness_relevant := false
    tempo_relevant := true
    valence_relevant := false
    danceability_relevant := false }

/-- Running maximum as computed by the `if value > current_max` scans of
`_normalize_features` (lines 66-78), starting from `init`. -/
def foldMaxQ (f : Track → ℚ) (init : ℚ) (tracks : List Track) : ℚ :=
  tracks.foldl (fun m t => if m < f t then f t else m) init

/-- Maximum loudness over a nonempty track list.  The source starts its scan
from `float('-inf')`; over a nonempty list this equals starting the same scan
from the first element's loudness, which avoids an infinity value in `ℚ`. -/
def max_loudness (t : Track) (ts : List Track) : ℚ :=
  foldMaxQ (fun u => u.loudness) t.loudness (t :: ts)

/-- Maximum energy, scan started from 0 as in the source (line 60). -/
def max_energy (tracks : List Track) : ℚ :=
  foldMaxQ (fun u => u.energy) 0 tracks

/-- Maximum instrumentalness, scan started from 0 (line 61). -/
def max_instrumentalness (tracks : List Track) : ℚ :=
  foldMaxQ (fun u => u.instrumentalness) 0 tracks

/-- Maximum tempo, scan started from 0 (line 62). -/
def max_tempo (tracks : List Track) : ℚ :=
  foldMaxQ (fun u => u.tempo) 0 tracks

/-- Maximum valence, scan started from 0 (line 63). -/
def max_valence (tracks : List Track) : ℚ :=
  foldMaxQ (fun u => u.valence) 0 tracks

/-- Maximum danceability, scan started from 0 (line 64). -/
def max_danceability (tracks : List Track) : ℚ :=
  foldMaxQ (fun u => u.danceability) 0 tracks

/-- One node of `_normalize_features`' second loop (lines 80-88): the
loudness dimension is `(loudness - max_loudness) / -max_loudness` (the caller
has already ruled out `max_loudness = 0`, which raises in Python), and each
ratio dimension is `raw / max if max else 0`, i.e. `0` when its maximum is
`0`.  A fresh node has an empty neighbour set. -/
def normalizeTrack (maxL maxE maxI maxT maxV maxD : ℚ) (t : Track) : TrackNode :=
  { track := t
    loudness_dimention := (t.loudness - maxL) / -maxL
    energy_dimention := if maxE = 0 then 0 else t.energy / maxE
    instrumentalness_dimention := if maxI = 0 then 0 else t.instrumentalness / maxI
    tempo_dimention := if maxT = 0 then 0 else t.tempo / maxT
    valence_dimention := if maxV = 0 then 0 else t.valence / maxV
    danceability_dimention := if maxD = 0 then 0 else t.danceability / maxD
    neighbours := [] }

/-- `TracksGraph._normalize_features` (lines 57-88).  On an empty track list
both loops are empty and no node is created.  On a nonempty list, if the
maximum loudness is `0` the very first evaluation of
`(track.loudness - max_loudness) / -max_loudness` raises `ZeroDivisionError`
(modelled as `none`); otherwise one normalized node per track is produced,
in order.  The five nonnegative dimensions are guarded by `if max else 0`
in the source and never raise. -/
def _normalize_features (tracks : List Track) : Option (List TrackNode) :=
  match tracks with
  | [] => some []
  | t :: ts =>
    let maxL := max_loudness t ts
    if maxL = 0 then none
    else
      some ((t :: ts).map (normalizeTrack maxL (max_energy (t :: ts))
        (max_instrumentalness (t :: ts)) (max_tempo (t :: ts))
        (max_valence (t :: ts)) (max_danceability (t :: ts))))

/-- The radicand of `TracksGraph._distance` (lines 90-105): sum of squared
differences over the dimensions marked relevant.  The source returns
`math.sqrt` of this value and only ever compares the results, so the
strictly monotone square root never changes a selection; see `_distance`
and `_distance_le_iff` below. -/
def distSq (mask : Mask) (node1 node2 : TrackNode) : ℚ :=
  (if mask.loudness_relevant then
    (node1.loudness_dimention - node2.loudness_dimention) ^ 2 else 0)
  + (if mask.energy_relevant then
    (node1.energy_dimention - node2.energy_dimention) ^ 2 else 0)
  + (if mask.instrumentalness_relevant then
    (node1.instrumentalness_dimention - node2.instrumentalness_dimention) ^ 2 else 0)
  + (if mask.tempo_relevant then
    (node1.tempo_dimention - node2.tempo_dimention) ^ 2 else 0)
  + (if mask.valence_relevant then
    (node1.valence_dimention - node2.valence_dimention) ^ 2 else 0)
  + (if mask.danceability_relevant then
    (node1.danceability_dimention - node2.danceability_dimention) ^ 2 else 0)

/-- `TracksGraph._distance` itself: the square root of `distSq`, in `ℝ`. -/
noncomputable def _distance (mask : Mask) (node1 node2 : TrackNode) : ℝ :=
  Real.sqrt ((distSq mask node1 node2 : ℚ) : ℝ)

/-- Python `set.add` on an insertion-ordered duplicate-free list: append the
element only when it is not yet a member. -/
def addOnce (j : Nat) (l : List Nat) : List Nat :=
  if j ∈ l then l else l ++ [j]

/-- Node lookup by index.  Indices are always in range in the source (they
come from iterating `self.nodes`); the default is never reached. -/
def getNode (ns : List TrackNode) (i : Nat) : TrackNode :=
  ns.getD i default

/-- The neighbour set of node `i`. -/
def nbr (ns : List TrackNode) (i : Nat) : List Nat :=
  (getNode ns i).neighbours

/-- Apply `f` to the neighbour set of the node at position `i`, leaving every
other field and node untouched (the in-place `neighbours` mutation of the
source). -/
def modifyNb (f : List Nat → List Nat) : List TrackNode → Nat → List TrackNode
  | [], _ => []
  | nd :: nds, 0 => { nd with neighbours := f nd.neighbours } :: nds
  | nd :: nds, k + 1 => nd :: modifyNb f nds k

/-- Stable insertion of one `(distance, index)` entry: the new entry goes
before the first entry with a strictly larger-or-equal key among those it is
compared against, keeping equal keys in their original relative order, as
Python's stable `list.sort(key=lambda x: x[0])` does. -/
def insertByDist (p : ℚ × Nat) : List (ℚ × Nat) → List (ℚ × Nat)
  | [] => [p]
  | q :: qs => if q.1 < p.1 then q :: insertByDist p qs else p :: q :: qs

/-- Stable sort by ascending distance key. -/
def sortByDist (l : List (ℚ × Nat)) : List (ℚ × Nat) :=
  l.foldr insertByDist []

/-- The mutual-edge insertion of `build_graph` (lines 116-119): add
`closest_node` (index `j`) to node `i`'s neighbours unless already present,
and then `i` to `j`'s neighbours unless already present. -/
def knnAddEdge (ns : List TrackNode) (i j : Nat) : List TrackNode :=
  if j ∈ nbr ns i then ns
  else
    let ns1 := modifyNb (fun l => l ++ [j]) ns i
    if i ∈ nbr ns1 j then ns1 else modifyNb (fun l => l ++ [i]) ns1 j

/-- One iteration of the outer loop of `build_graph` (lines 108-119) for the
node at index `i`: collect `(distance, other)` for every other node in list
order, sort stably by distance, and insert mutual edges to the first two. -/
def knnStep (mask : Mask) (ns : List TrackNode) (i : Nat) : List TrackNode :=
  let distances := ((List.range ns.length).filter (fun j => j ≠ i)).map
    (fun j => (distSq mask (getNode ns i) (getNode ns j), j))
  ((sortByDist distances).take 2).foldl (fun acc p => knnAddEdge acc i p.2) ns

/-- The whole k-nearest pass of `build_graph` (lines 108-119), over the nodes
in list order. -/
def knnPass (mask : Mask) (ns : List TrackNode) : List TrackNode :=
  (List.range ns.length).foldl (knnStep mask) ns

/-- Adjacency view of the node list: row `i` is the neighbour list of
node `i`. -/
def adjOf (ns : List TrackNode) : List (List Nat) :=
  ns.map (fun nd => nd.neighbours)

/-- The initial traversal stack `[self.nodes[0]] if self.nodes else []`. -/
def startStack (ns : List TrackNode) : List Nat :=
  match ns with
  | [] => []
  | _ => [0]

/-- One iteration of the `while to_visit:` traversal loop (lines 128-132 and
167-171), parameterized by an explicit iteration budget: pop the most recent
stack entry; if unvisited, mark it visited and push its not-yet-visited
neighbours.  `visited.add(current)` precedes the neighbour filter in the
source, hence the filter against `visited ++ [current]`.  The neighbour row
is pushed reversed so that popping recovers the source's back-to-front
order of `list.pop()` after `extend`. -/
def dfsGo (adj : List (List Nat)) : Nat → List Nat → List Nat → List Nat
  | _, visited, [] => visited
  | 0, visited, _ :: _ => visited
  | fuel + 1, visited, current :: rest =>
    if current ∈ visited then dfsGo adj fuel visited rest
    else
      dfsGo adj fuel (visited ++ [current])
        ((((adj.getD current []).filter
          (fun y => y ∉ visited ++ [current])).reverse) ++ rest)

/-- Iteration budget for the traversal loop: the stack size plus, for every
unvisited node index, one pop plus one push per neighbour.  `dfsFuel_pop`,
`dfsFuel_new_small` and `dfsFuel_new_large` below show it strictly decreases
across a loop iteration, so the loop always halts within this budget. -/
def dfsFuel (adj : List (List Nat)) (visited stack : List Nat) : Nat :=
  stack.length +
    (((List.range adj.length).filter (fun i => i ∉ visited)).map
      (fun i => (adj.getD i []).length + 1)).sum

/-- The traversal loop run to completion: `dfsGo` with the sufficient budget
`dfsFuel`.  This is the `while to_visit:` loop shared by
`_ensure_connectivity` (lines 125-132) and `is_connected` (lines 164-171). -/
def dfsVisit (adj : List (List Nat)) (visited stack : List Nat) : List Nat :=
  dfsGo adj (dfsFuel adj visited stack) visited stack

/-- The unconditional mutual edge of the repair pass (lines 147-148):
`set.add` on both endpoints' neighbour sets. -/
def addEdgeBoth (ns : List TrackNode) (i j : Nat) : List TrackNode :=
  modifyNb (addOnce i) (modifyNb (addOnce j) ns i) j

/-- One iteration of the repair loop (lines 138-149) on state
`(nodes, visited)` for the unvisited index `i`: distances from `i` to every
currently visited node, stable sort, and if any exist, a mutual edge to the
closest one followed by `visited.add(i)`. -/
def repairStep (mask : Mask) (st : List TrackNode × List Nat) (i : Nat) :
    List TrackNode × List Nat :=
  let distances := st.2.map (fun j => (distSq mask (getNode st.1 i) (getNode st.1 j), j))
  match sortByDist distances with
  | [] => st
  | p :: _ => (addEdgeBoth st.1 i p.2, addOnce i st.2)

/-- `TracksGraph._ensure_connectivity` (lines 123-149): depth-first traversal
from the first node; if it did not reach every node, walk the unvisited
nodes in list order, each time connecting the node to its closest
currently-visited node and marking it visited. -/
def _ensure_connectivity (mask : Mask) (ns : List TrackNode) : List TrackNode :=
  let visited := dfsVisit (adjOf ns) [] (startStack ns)
  if visited.length = ns.length then ns
  else
    (((List.range ns.length).filter (fun i => i ∉ visited)).foldl
      (repairStep mask) (ns, visited)).1

/-- `TracksGraph.build_graph` (lines 107-121): the k-nearest pass followed by
the connectivity repair pass. -/
def build_graph (mask : Mask) (ns : List TrackNode) : List TrackNode :=
  _ensure_connectivity mask (knnPass mask ns)

/-- The standalone connectivity check `is_connected` (lines 163-173): run the
same traversal from the first node and compare the number of visited nodes
with the number of nodes. -/
def is_connected (ns : List TrackNode) : Bool :=
  (dfsVisit (adjOf ns) [] (startStack ns)).length == ns.length

/-- `TracksGraph.__init__` (lines 44-55): normalize the playlist's tracks
into nodes (possibly raising, hence `Option`), fix the default relevance
mask, and build the graph.  The value is the final node list. -/
def mkTracksGraph (tracks : List Track) : Option (List TrackNode) :=
  (_normalize_features tracks).map (build_graph defaultMask)

/-- One directed adjacency step: `b` is listed among `a`'s neighbours. -/
def Step (adj : List (List Nat)) (a b : Nat) : Prop :=
  b ∈ adj.getD a []

/-- Reachability along directed adjacency entries. -/
def Reach (adj : List (List Nat)) : Nat → Nat → Prop :=
  Relation.ReflTransGen (Step adj)

/-- Projection of a node to everything except its neighbour set: the track
reference and the six normalized dimensions. -/
def nodeData (nd : TrackNode) : Track × ℚ × ℚ × ℚ × ℚ × ℚ × ℚ :=
  (nd.track, nd.loudness_dimention, nd.energy_dimention, nd.instrumentalness_dimention,
    nd.tempo_dimention, nd.valence_dimention, nd.danceability_dimention)

/-- Track lookup by index, with an irrelevant default. -/
def getTrack (tracks : List Track) (k : Nat) : Track :=
  tracks.getD k default

theorem mem_addOnce {x j : Nat} {l : List Nat} :
    x ∈ addOnce j l ↔ x = j ∨ x ∈ l := by
  unfold addOnce
  by_cases h : j ∈ l
  · simp only [if_pos h]
    constructor
    · exact fun hx => Or.inr hx
    · rintro (rfl | hx)
      · exact h
      · exact hx
  · simp [if_neg h, List.mem_append, or_comm]

theorem subset_addOnce (j : Nat) (l : List Nat) : l ⊆ addOnce j l := by
  intro x hx; exact mem_addOnce.mpr (Or.inr hx)

theorem mem_addOnce_self (j : Nat) (l : List Nat) : j ∈ addOnce j l :=
  mem_addOnce.mpr (Or.inl rfl)

theorem addOnce_ne_nil (j : Nat) (l : List Nat) (h : l ≠ []) : addOnce j l ≠ [] := by
  unfold addOnce
  by_cases hj : j ∈ l
  · simpa [if_pos hj]
  · simp [if_neg hj]

theorem nodup_addOnce {j : Nat} {l : List Nat} (h : l.Nodup) : (addOnce j l).Nodup := by
  unfold addOnce
  by_cases hj : j ∈ l
  · simpa [if_pos hj]
  · simpa [if_neg hj, List.nodup_append] using ⟨h, hj⟩

theorem getNode_nil (i : Nat) : getNode [] i = default := by
  cases i <;> rfl

theorem nbr_nil (i : Nat) : nbr [] i = [] := by
  unfold nbr
  rw [getNode_nil]
  rfl

theorem nbr_of_le {ns : List TrackNode} {i : Nat} (h : ns.length ≤ i) : nbr ns i = [] := by
  unfold nbr getNode
  rw [List.getD_eq_default _ _ h]
  rfl

theorem length_modifyNb (f : List Nat → List Nat) (ns : List TrackNode) (i : Nat) :
    (modifyNb f ns i).length = ns.length := by
  induction ns generalizing i with
  | nil => rfl
  | cons nd nds ih =>
    cases i with
    | zero => rfl
    | succ k => simpa [modifyNb] using ih k

theorem getNode_cons_succ (nd : TrackNode) (nds : List TrackNode) (k : Nat) :
    getNode (nd :: nds) (k + 1) = getNode nds k := rfl

theorem nbr_cons_succ (nd : TrackNode) (nds : List TrackNode) (k : Nat) :
    nbr (nd :: nds) (k + 1) = nbr nds k := rfl

theorem nbr_modifyNb_self {f : List Nat → List Nat} {ns : List TrackNode} {i : Nat}
    (h : i < ns.length) : nbr (modifyNb f ns i) i = f (nbr ns i) := by
  induction ns generalizing i with
  | nil => simp at h
  | cons nd nds ih =>
    cases i with
    | zero => rfl
    | succ k =>
      have hk : k < nds.length := by simpa using h
      simpa [modifyNb, nbr_cons_succ] using ih hk

theorem nbr_modifyNb_ne {f : List Nat → List Nat} {ns : List TrackNode} {i k : Nat}
    (h : k ≠ i) : nbr (modifyNb f ns i) k = nbr ns k := by
  induction ns generalizing i k with
  | nil => simp [modifyNb]
  | cons nd nds ih =>
    cases i with
    | zero =>
      cases k with
      | zero => exact absurd rfl h
      | succ k' => rfl
    | succ i' =>
      cases k with
      | zero => rfl
      | succ k' =>
        have : k' ≠ i' := fun hk => h (by simp [hk])
        simpa [modifyNb, nbr_cons_succ] using ih this

theorem modifyNb_of_le {f : List Nat → List Nat} {ns : List TrackNode} {i : Nat}
    (h : ns.length ≤ i) : modifyNb f ns i = ns := by
  induction ns generalizing i with
  | nil => rfl
  | cons nd nds ih =>
    cases i with
    | zero => simp at h
    | succ k =>
      have : nds.length ≤ k := by simpa using h
      simp [modifyNb, ih this]

theorem map_nodeData_modifyNb (f : List Nat → List Nat) (ns : List TrackNode) (i : Nat) :
    (modifyNb f ns i).map nodeData = ns.map nodeData := by
  induction ns generalizing i with
  | nil => rfl
  | cons nd nds ih =>
    cases i with
    | zero => simp [modifyNb, nodeData]
    | succ k => simp [modifyNb, ih k]

theorem insertByDist_perm (p : ℚ × Nat) (l : List (ℚ × Nat)) :
    (insertByDist p l).Perm (p :: l) := by
  induction l with
  | nil => exact List.Perm.refl _
  | cons q qs ih =>
    unfold insertByDist
    by_cases h : q.1 < p.1
    · rw [if_pos h]
      exact ((ih).cons q).trans (List.Perm.swap p q qs)
    · rw [if_neg h]

theorem sortByDist_perm (l : List (ℚ × Nat)) : (sortByDist l).Perm l := by
  induction l with
  | nil => exact List.Perm.refl _
  | cons p ps ih =>
    exact (insertByDist_perm p (sortByDist ps)).trans (ih.cons p)

theorem sortByDist_length (l : List (ℚ × Nat)) : (sortByDist l).length = l.length :=
  (sortByDist_perm l).length_eq

theorem mem_of_mem_sortByDist {p : ℚ × Nat} {l : List (ℚ × Nat)} (h : p ∈ sortByDist l) :
    p ∈ l :=
  (sortByDist_perm l).mem_iff.mp h

theorem adjOf_getD (ns : List TrackNode) (a : Nat) : (adjOf ns).getD a [] = nbr ns a := by
  unfold adjOf nbr getNode
  rcases lt_or_le a ns.length with h | h
  · rw [List.getD_eq_getElem?_getD, List.getElem?_map, List.getD_eq_getElem?_getD,
      List.getElem?_eq_getElem h]
    simp
  · rw [List.getD_eq_default _ _ (by simpa using h), List.getD_eq_default _ _ h]
    rfl

theorem adjOf_length (ns : List TrackNode) : (adjOf ns).length = ns.length :=
  List.length_map ns _

theorem dfsGo_nil (adj : List (List Nat)) (fuel : Nat) (visited : List Nat) :
    dfsGo adj fuel visited [] = visited := by
  cases fuel <;> rfl

theorem dfsGo_succ_mem {adj : List (List Nat)} {fuel : Nat} {visited : List Nat}
    {c : Nat} {rest : List Nat} (h : c ∈ visited) :
    dfsGo adj (fuel + 1) visited (c :: rest) = dfsGo adj fuel visited rest := by
  simp [dfsGo, h]

theorem dfsGo_succ_new {adj : List (List Nat)} {fuel : Nat} {visited : List Nat}
    {c : Nat} {rest : List Nat} (h : c ∉ visited) :
    dfsGo adj (fuel + 1) visited (c :: rest) =
      dfsGo adj fuel (visited ++ [c])
        ((((adj.getD c []).filter (fun y => y ∉ visited ++ [c])).reverse) ++ rest) := by
  simp [dfsGo, h]

theorem subset_dfsGo (adj : List (List Nat)) :
    ∀ (fuel : Nat) (visited stack : List Nat), visited ⊆ dfsGo adj fuel visited stack := by
  intro fuel
  induction fuel with
  | zero =>
    intro visited stack
    cases stack with
    | nil => rw [dfsGo_nil]; exact fun x hx => hx
    | cons c rest => exact fun x hx => hx
  | succ n ih =>
    intro visited stack
    cases stack with
    | nil => rw [dfsGo_nil]; exact fun x hx => hx
    | cons c rest =>
      by_cases hc : c ∈ visited
      · rw [dfsGo_succ_mem hc]; exact ih visited rest
      · rw [dfsGo_succ_new hc]
        intro x hx
        exact ih _ _ (by simp [hx])

theorem nodup_dfsGo (adj : List (List Nat)) :
    ∀ (fuel : Nat) (visited stack : List Nat), visited.Nodup →
      (dfsGo adj fuel visited stack).Nodup := by
  intro fuel
  induction fuel with
  | zero =>
    intro visited stack h
    cases stack with
    | nil => rw [dfsGo_nil]; exact h
    | cons c rest => exact h
  | succ n ih =>
    intro visited stack h
    cases stack with
    | nil => rw [dfsGo_nil]; exact h
    | cons c rest =>
      by_cases hc : c ∈ visited
      · rw [dfsGo_succ_mem hc]; exact ih visited rest h
      · rw [dfsGo_succ_new hc]
        exact ih _ _ (by simp [List.nodup_append, h, hc])

theorem bound_dfsGo (adj : List (List Nat))
    (hrows : ∀ i, ∀ j ∈ adj.getD i [], j < adj.length) :
    ∀ (fuel : Nat) (visited stack : List Nat),
      (∀ x ∈ visited, x < adj.length) → (∀ x ∈ stack, x < adj.length) →
      ∀ x ∈ dfsGo adj fuel visited stack, x < adj.length := by
  intro fuel
  induction fuel with
  | zero =>
    intro visited stack hv hs
    cases stack with
    | nil => rw [dfsGo_nil]; exact hv
    | cons c rest => exact hv
  | succ n ih =>
    intro visited stack hv hs
    cases stack with
    | nil => rw [dfsGo_nil]; exact hv
    | cons c rest =>
      by_cases hc : c ∈ visited
      · rw [dfsGo_succ_mem hc]
        exact ih visited rest hv (fun x hx => hs x (by simp [hx]))
      · rw [dfsGo_succ_new hc]
        refine ih _ _ ?_ ?_
        · intro x hx
          rcases List.mem_append.mp hx with hx | hx
          · exact hv x hx
          · simp only [List.mem_singleton] at hx
            exact hx ▸ hs c (by simp)
        · intro x hx
          rcases List.mem_append.mp hx with hx | hx
          · exact hrows c x (List.mem_of_mem_filter (List.mem_reverse.mp hx))
          · exact hs x (by simp [hx])

theorem sound_dfsGo (adj : List (List Nat)) :
    ∀ (fuel : Nat) (visited stack : List Nat),
      ∀ x ∈ dfsGo adj fuel visited stack,
        x ∈ visited ∨ ∃ s ∈ stack, Reach adj s x := by
  intro fuel
  induction fuel with
  | zero =>
    intro visited stack x hx
    cases stack with
    | nil => rw [dfsGo_nil] at hx; exact Or.inl hx
    | cons c rest => exact Or.inl hx
  | succ n ih =>
    intro visited stack x hx
    cases stack with
    | nil => rw [dfsGo_nil] at hx; exact Or.inl hx
    | cons c rest =>
      by_cases hc : c ∈ visited
      · rw [dfsGo_succ_mem hc] at hx
        rcases ih visited rest x hx with h | ⟨s, hs, hr⟩
        · exact Or.inl h
        · exact Or.inr ⟨s, by simp [hs], hr⟩
      · rw [dfsGo_succ_new hc] at hx
        rcases ih _ _ x hx with h | ⟨s, hs, hr⟩
        · rcases List.mem_append.mp h with h | h
          · exact Or.inl h
          · simp only [List.mem_singleton] at h
            exact Or.inr ⟨c, by simp, h ▸ Relation.ReflTransGen.refl⟩
        · rcases List.mem_append.mp hs with hs | hs
          · refine Or.inr ⟨c, by simp, Relation.ReflTransGen.head ?_ hr⟩
            exact List.mem_of_mem_filter (List.mem_reverse.mp hs)
          · exact Or.inr ⟨s, by simp [hs], hr⟩

theorem dfsFuel_cons (adj : List (List Nat)) (visited : List Nat) (c : Nat)
    (rest : List Nat) :
    dfsFuel adj visited (c :: rest) = dfsFuel adj visited rest + 1 := by
  unfold dfsFuel
  simp only [List.length_cons]
  omega

theorem sum_split_visited (adj : List (List Nat)) (visited : List Nat) {c : Nat}
    (hc : c < adj.length) (hcv : c ∉ visited) :
    (((List.range adj.length).filter (fun i => i ∉ visited)).map
        (fun i => (adj.getD i []).length + 1)).sum
      = ((adj.getD c []).length + 1)
        + (((List.range adj.length).filter (fun i => i ∉ visited ++ [c])).map
            (fun i => (adj.getD i []).length + 1)).sum := by
  have hnd : ((List.range adj.length).filter (fun i => i ∉ visited)).Nodup :=
    (List.nodup_range _).filter _
  have hcl : c ∈ (List.range adj.length).filter (fun i => i ∉ visited) := by
    simp [List.mem_filter, List.mem_range, hc, hcv]
  have hperm := List.perm_cons_erase hcl
  have herase : ((List.range adj.length).filter (fun i => i ∉ visited)).erase c
      = ((List.range adj.length).filter (fun i => i ∉ visited)).filter
          (fun x => x != c) :=
    hnd.erase_eq_filter c
  have hff : (((List.range adj.length).filter (fun i => i ∉ visited)).filter
        (fun x => x != c))
      = (List.range adj.length).filter (fun i => i ∉ visited ++ [c]) := by
    rw [List.filter_filter]
    refine List.filter_congr ?_
    intro x hx
    by_cases h1 : x ∈ visited
    · simp [h1]
    · by_cases h2 : x = c
      · simp [h1, h2]
      · simp [h1, h2]
  calc (((List.range adj.length).filter (fun i => i ∉ visited)).map
        (fun i => (adj.getD i []).length + 1)).sum
      = ((c :: ((List.range adj.length).filter (fun i => i ∉ visited)).erase c).map
          (fun i => (adj.getD i []).length + 1)).sum :=
        (hperm.map _).sum_eq
    _ = ((adj.getD c []).length + 1)
        + ((((List.range adj.length).filter (fun i => i ∉ visited)).erase c).map
            (fun i => (adj.getD i []).length + 1)).sum := by
        simp
    _ = ((adj.getD c []).length + 1)
        + (((List.range adj.length).filter (fun i => i ∉ visited ++ [c])).map
            (fun i => (adj.getD i []).length + 1)).sum := by
        rw [herase, hff]

theorem filter_visited_append_of_ge (adj : List (List Nat)) (visited : List Nat)
    {c : Nat} (hc : adj.length ≤ c) :
    (List.range adj.length).filter (fun i => i ∉ visited ++ [c])
      = (List.range adj.length).filter (fun i => i ∉ visited) := by
  refine List.filter_congr ?_
  intro x hx
  have hxc : x ≠ c := by
    have := List.mem_range.mp hx
    omega
  by_cases h1 : x ∈ visited
  · simp [h1]
  · simp [h1, hxc]

theorem dfsFuel_new_small (adj : List (List Nat)) (visited : List Nat) {c : Nat}
    (rest : List Nat) (hc : c < adj.length) (hcv : c ∉ visited) :
    dfsFuel adj (visited ++ [c])
        ((((adj.getD c []).filter (fun y => y ∉ visited ++ [c])).reverse) ++ rest) + 2
      ≤ dfsFuel adj visited (c :: rest) := by
  unfold dfsFuel
  have hlen : (((adj.getD c []).filter (fun y => y ∉ visited ++ [c])).reverse).length
      ≤ (adj.getD c []).length := by
    rw [List.length_reverse]
    exact List.length_filter_le _ _
  have hsum := sum_split_visited adj visited hc hcv
  simp only [List.length_append, List.length_cons]
  omega

theorem dfsFuel_new_large (adj : List (List Nat)) (visited : List Nat) {c : Nat}
    (rest : List Nat) (hc : adj.length ≤ c) :
    dfsFuel adj (visited ++ [c])
        ((((adj.getD c []).filter (fun y => y ∉ visited ++ [c])).reverse) ++ rest) + 1
      ≤ dfsFuel adj visited (c :: rest) := by
  unfold dfsFuel
  have hrow : adj.getD c [] = [] := List.getD_eq_default _ _ hc
  rw [filter_visited_append_of_ge adj visited hc, hrow]
  simp only [List.filter_nil, List.reverse_nil, List.nil_append, List.length_cons]
  omega

theorem dfsGo_spec (adj : List (List Nat)) :
    ∀ (fuel : Nat) (visited stack : List Nat), dfsFuel adj visited stack ≤ fuel →
      (∀ s ∈ stack, s ∈ dfsGo adj fuel visited stack) ∧
      (∀ a ∈ dfsGo adj fuel visited stack, a ∉ visited →
        ∀ b ∈ adj.getD a [], b ∈ dfsGo adj fuel visited stack) := by
  intro fuel
  induction fuel with
  | zero =>
    intro visited stack h
    cases stack with
    | nil =>
      rw [dfsGo_nil]
      exact ⟨fun s hs => absurd hs (List.not_mem_nil s),
        fun a ha hav b hb => absurd ha hav⟩
    | cons c rest =>
      exfalso
      rw [dfsFuel_cons] at h
      omega
  | succ n ih =>
    intro visited stack h
    cases stack with
    | nil =>
      rw [dfsGo_nil]
      exact ⟨fun s hs => absurd hs (List.not_mem_nil s),
        fun a ha hav b hb => absurd ha hav⟩
    | cons c rest =>
      by_cases hc : c ∈ visited
      · rw [dfsGo_succ_mem hc]
        have h' : dfsFuel adj visited rest ≤ n := by
          rw [dfsFuel_cons] at h
          omega
        obtain ⟨iha, ihb⟩ := ih visited rest h'
        refine ⟨?_, ihb⟩
        intro s hs
        rcases List.mem_cons.mp hs with rfl | hs
        · exact subset_dfsGo adj n visited rest hc
        · exact iha s hs
      · rw [dfsGo_succ_new hc]
        have h' : dfsFuel adj (visited ++ [c])
            ((((adj.getD c []).filter (fun y => y ∉ visited ++ [c])).reverse) ++ rest)
            ≤ n := by
          rcases lt_or_le c adj.length with hlt | hge
          · have := dfsFuel_new_small adj visited rest hlt hc
            omega
          · have := dfsFuel_new_large adj visited rest hge
            omega
        obtain ⟨iha, ihb⟩ := ih _ _ h'
        have hsubval : visited ++ [c] ⊆ dfsGo adj n (visited ++ [c])
            ((((adj.getD c []).filter (fun y => y ∉ visited ++ [c])).reverse) ++ rest) :=
          subset_dfsGo adj n _ _
        constructor
        · intro s hs
          rcases List.mem_cons.mp hs with rfl | hs
          · exact hsubval (by simp)
          · exact iha s (List.mem_append.mpr (Or.inr hs))
        · intro a ha hav b hb
          by_cases hac : a = c
          · subst hac
            by_cases hbv : b ∈ visited ++ [a]
            · exact hsubval hbv
            · refine iha b (List.mem_append.mpr (Or.inl ?_))
              rw [List.mem_reverse]
              exact List.mem_filter.mpr ⟨hb, by simpa using hbv⟩
          · have hav' : a ∉ visited ++ [c] := by
              simp [hav, hac]
            exact ihb a ha hav' b hb

theorem dfsGo_fuel_congr (adj : List (List Nat)) :
    ∀ (fuel fuel' : Nat) (visited stack : List Nat),
      dfsFuel adj visited stack ≤ fuel → dfsFuel adj visited stack ≤ fuel' →
      dfsGo adj fuel visited stack = dfsGo adj fuel' visited stack := by
  intro fuel
  induction fuel with
  | zero =>
    intro fuel' visited stack h h'
    cases stack with
    | nil => rw [dfsGo_nil, dfsGo_nil]
    | cons c rest =>
      exfalso
      rw [dfsFuel_cons] at h
      omega
  | succ n ih =>
    intro fuel' visited stack h h'
    cases stack with
    | nil => rw [dfsGo_nil, dfsGo_nil]
    | cons c rest =>
      cases fuel' with
      | zero =>
        exfalso
        rw [dfsFuel_cons] at h'
        omega
      | succ m =>
        by_cases hc : c ∈ visited
        · rw [dfsGo_succ_mem hc, dfsGo_succ_mem hc]
          rw [dfsFuel_cons] at h h'
          exact ih m visited rest (by omega) (by omega)
        · rw [dfsGo_succ_new hc, dfsGo_succ_new hc]
          have hle : dfsFuel adj (visited ++ [c])
              ((((adj.getD c []).filter (fun y => y ∉ visited ++ [c])).reverse) ++ rest) + 1
              ≤ dfsFuel adj visited (c :: rest) := by
            rcases lt_or_le c adj.length with hlt | hge
            · have := dfsFuel_new_small adj visited rest hlt hc
              omega
            · exact dfsFuel_new_large adj visited rest hge
          exact ih m _ _ (by omega) (by omega)

theorem stack_subset_dfsVisit (adj : List (List Nat)) (visited stack : List Nat) :
    ∀ s ∈ stack, s ∈ dfsVisit adj visited stack :=
  (dfsGo_spec adj (dfsFuel adj visited stack) visited stack (le_refl _)).1

theorem closed_dfsVisit (adj : List (List Nat)) (visited stack : List Nat) :
    ∀ a ∈ dfsVisit adj visited stack, a ∉ visited →
      ∀ b ∈ adj.getD a [], b ∈ dfsVisit adj visited stack :=
  (dfsGo_spec adj (dfsFuel adj visited stack) visited stack (le_refl _)).2

theorem subset_dfsVisit (adj : List (List Nat)) (visited stack : List Nat) :
    visited ⊆ dfsVisit adj visited stack :=
  subset_dfsGo adj _ visited stack

theorem nodup_dfsVisit (adj : List (List Nat)) (visited stack : List Nat)
    (h : visited.Nodup) : (dfsVisit adj visited stack).Nodup :=
  nodup_dfsGo adj _ visited stack h

theorem bound_dfsVisit (adj : List (List Nat))
    (hrows : ∀ i, ∀ j ∈ adj.getD i [], j < adj.length) (visited stack : List Nat)
    (hv : ∀ x ∈ visited, x < adj.length) (hs : ∀ x ∈ stack, x < adj.length) :
    ∀ x ∈ dfsVisit adj visited stack, x < adj.length :=
  bound_dfsGo adj hrows _ visited stack hv hs

theorem sound_dfsVisit (adj : List (List Nat)) (visited stack : List Nat) :
    ∀ x ∈ dfsVisit adj visited stack, x ∈ visited ∨ ∃ s ∈ stack, Reach adj s x :=
  sound_dfsGo adj _ visited stack

theorem mem_dfsVisit_of_reach (adj : List (List Nat)) (stack : List Nat) {s x : Nat}
    (hs : s ∈ stack) (hr : Reach adj s x) : x ∈ dfsVisit adj [] stack := by
  induction hr with
  | refl => exact stack_subset_dfsVisit adj [] stack s hs
  | tail hab hstep ih =>
    exact closed_dfsVisit adj [] stack _ ih (List.not_mem_nil _) _ hstep

theorem rows_bound_adjOf {ns : List TrackNode}
    (hrows : ∀ i, ∀ j ∈ nbr ns i, j < ns.length) :
    ∀ i, ∀ j ∈ (adjOf ns).getD i [], j < (adjOf ns).length := by
  intro i j hj
  rw [adjOf_getD] at hj
  rw [adjOf_length]
  exact hrows i j hj

theorem length_eq_of_nodup_of_mem_iff {l : List Nat} {n : Nat} (hnd : l.Nodup)
    (h : ∀ x, x ∈ l ↔ x < n) : l.length = n := by
  have htf : l.toFinset = Finset.range n := by
    ext y
    rw [List.mem_toFinset, Finset.mem_range]
    exact h y
  calc l.length = l.toFinset.card := (List.toFinset_card_of_nodup hnd).symm
    _ = (Finset.range n).card := by rw [htf]
    _ = n := Finset.card_range n

theorem is_connected_eq_true {ns : List TrackNode}
    (hrows : ∀ i, ∀ j ∈ nbr ns i, j < ns.length)
    (hreach : ∀ x, x < ns.length → Reach (adjOf ns) 0 x) :
    is_connected ns = true := by
  cases ns with
  | nil => decide
  | cons nd nds =>
    have hb := bound_dfsVisit (adjOf (nd :: nds)) (rows_bound_adjOf hrows) []
      [0] (by intro x hx; exact absurd hx (List.not_mem_nil x))
      (by intro x hx; simp only [List.mem_singleton] at hx; subst hx
          rw [adjOf_length]; simp)
    have hall : ∀ x, x ∈ dfsVisit (adjOf (nd :: nds)) [] [0] ↔ x < (nd :: nds).length := by
      intro x
      constructor
      · intro hx
        have := hb x hx
        rwa [adjOf_length] at this
      · intro hx
        exact mem_dfsVisit_of_reach _ [0] (by simp) (hreach x hx)
    have hndp : (dfsVisit (adjOf (nd :: nds)) [] [0]).Nodup :=
      nodup_dfsVisit _ [] [0] List.nodup_nil
    have hlen : (dfsVisit (adjOf (nd :: nds)) [] [0]).length = (nd :: nds).length :=
      length_eq_of_nodup_of_mem_iff hndp hall
    show ((dfsVisit (adjOf (nd :: nds)) [] (startStack (nd :: nds))).length
      == (nd :: nds).length) = true
    have hss : startStack (nd :: nds) = [0] := rfl
    rw [hss, hlen]
    simp

theorem nbr_addEdgeBoth {ns : List TrackNode} {i j : Nat} (hi : i < ns.length)
    (hj : j < ns.length) (hij : i ≠ j) (k : Nat) :
    nbr (addEdgeBoth ns i j) k =
      if k = i then addOnce j (nbr ns i)
      else if k = j then addOnce i (nbr ns j)
      else nbr ns k := by
  unfold addEdgeBoth
  have hj' : j < (modifyNb (addOnce j) ns i).length := by
    rw [length_modifyNb]; exact hj
  by_cases hki : k = i
  · subst hki
    rw [if_pos rfl, nbr_modifyNb_ne hij, nbr_modifyNb_self hi]
  · by_cases hkj : k = j
    · subst hkj
      rw [if_neg hki, if_pos rfl, nbr_modifyNb_self hj', nbr_modifyNb_ne (Ne.symm hij)]
    · rw [if_neg hki, if_neg hkj, nbr_modifyNb_ne hkj, nbr_modifyNb_ne hki]

theorem nbr_knnAddEdge {ns : List TrackNode} {i j : Nat} (hi : i < ns.length)
    (hj : j < ns.length) (hij : i ≠ j) (k : Nat) :
    nbr (knnAddEdge ns i j) k =
      if j ∈ nbr ns i then nbr ns k
      else if k = i then nbr ns i ++ [j]
      else if k = j then (if i ∈ nbr ns j then nbr ns j else nbr ns j ++ [i])
      else nbr ns k := by
  have hrow1j : nbr (modifyNb (fun l => l ++ [j]) ns i) j = nbr ns j :=
    nbr_modifyNb_ne (Ne.symm hij)
  have hj' : j < (modifyNb (fun l => l ++ [j]) ns i).length := by
    rw [length_modifyNb]; exact hj
  by_cases h1 : j ∈ nbr ns i
  · simp only [knnAddEdge, if_pos h1]
  · simp only [knnAddEdge, if_neg h1, hrow1j]
    by_cases h2 : i ∈ nbr ns j
    · rw [if_pos h2]
      by_cases hki : k = i
      · subst hki
        rw [if_pos rfl, nbr_modifyNb_self hi]
      · rw [if_neg hki]
        by_cases hkj : k = j
        · subst hkj
          rw [if_pos rfl, if_pos h2, hrow1j]
        · rw [if_neg hkj, nbr_modifyNb_ne hki]
    · rw [if_neg h2]
      by_cases hki : k = i
      · subst hki
        rw [if_pos rfl, nbr_modifyNb_ne hij, nbr_modifyNb_self hi]
      · rw [if_neg hki]
        by_cases hkj : k = j
        · subst hkj
          rw [if_pos rfl, if_neg h2, nbr_modifyNb_self hj', hrow1j]
        · rw [if_neg hkj, nbr_modifyNb_ne hkj, nbr_modifyNb_ne hki]

theorem length_addEdgeBoth (ns : List TrackNode) (i j : Nat) :
    (addEdgeBoth ns i j).length = ns.length := by
  unfold addEdgeBoth
  rw [length_modifyNb, length_modifyNb]

theorem length_knnAddEdge (ns : List TrackNode) (i j : Nat) :
    (knnAddEdge ns i j).length = ns.length := by
  by_cases h1 : j ∈ nbr ns i
  · simp only [knnAddEdge, if_pos h1]
  · simp only [knnAddEdge, if_neg h1]
    by_cases h2 : i ∈ nbr (modifyNb (fun l => l ++ [j]) ns i) j
    · rw [if_pos h2, length_modifyNb]
    · rw [if_neg h2, length_modifyNb, length_modifyNb]

theorem map_nodeData_addEdgeBoth (ns : List TrackNode) (i j : Nat) :
    (addEdgeBoth ns i j).map nodeData = ns.map nodeData := by
  unfold addEdgeBoth
  rw [map_nodeData_modifyNb, map_nodeData_modifyNb]

theorem map_nodeData_knnAddEdge (ns : List TrackNode) (i j : Nat) :
    (knnAddEdge ns i j).map nodeData = ns.map nodeData := by
  by_cases h1 : j ∈ nbr ns i
  · simp only [knnAddEdge, if_pos h1]
  · simp only [knnAddEdge, if_neg h1]
    by_cases h2 : i ∈ nbr (modifyNb (fun l => l ++ [j]) ns i) j
    · rw [if_pos h2, map_nodeData_modifyNb]
    · rw [if_neg h2, map_nodeData_modifyNb, map_nodeData_modifyNb]

theorem nbr_subset_modifyNb {f : List Nat → List Nat} (hf : ∀ l, l ⊆ f l)
    (ns : List TrackNode) (y k : Nat) : nbr ns k ⊆ nbr (modifyNb f ns y) k := by
  by_cases hky : k = y
  · subst hky
    by_cases hlt : k < ns.length
    · rw [nbr_modifyNb_self hlt]
      exact hf _
    · rw [modifyNb_of_le (le_of_not_lt hlt)]
      exact fun x h => h
  · rw [nbr_modifyNb_ne hky]
    exact fun x h => h

theorem nbr_subset_addEdgeBoth (ns : List TrackNode) (i j k : Nat) :
    nbr ns k ⊆ nbr (addEdgeBoth ns i j) k := by
  unfold addEdgeBoth
  refine subset_trans (nbr_subset_modifyNb (subset_addOnce j) ns i k) ?_
  exact nbr_subset_modifyNb (subset_addOnce i) _ j k

theorem nbr_subset_knnAddEdge (ns : List TrackNode) (i j k : Nat) :
    nbr ns k ⊆ nbr (knnAddEdge ns i j) k := by
  have happ : ∀ x : Nat, ∀ l : List Nat, l ⊆ l ++ [x] :=
    fun x l => List.subset_append_left l [x]
  by_cases h1 : j ∈ nbr ns i
  · simp only [knnAddEdge, if_pos h1]
    exact fun x h => h
  · simp only [knnAddEdge, if_neg h1]
    by_cases h2 : i ∈ nbr (modifyNb (fun l => l ++ [j]) ns i) j
    · rw [if_pos h2]
      exact nbr_subset_modifyNb (happ j) ns i k
    · rw [if_neg h2]
      refine subset_trans (nbr_subset_modifyNb (happ j) ns i k) ?_
      exact nbr_subset_modifyNb (happ i) _ j k

/-- The structural invariant maintained by every edge-forming operation:
the node list keeps its length and its non-neighbour data (`nodeData`),
neighbour entries stay in range, adjacency is symmetric, and no node lists
itself. -/
structure GInv (d : List (Track × ℚ × ℚ × ℚ × ℚ × ℚ × ℚ)) (n : Nat)
    (ns : List TrackNode) : Prop where
  len : ns.length = n
  dat : ns.map nodeData = d
  rows : ∀ i, ∀ j ∈ nbr ns i, j < n
  symm : ∀ i j, (j ∈ nbr ns i ↔ i ∈ nbr ns j)
  nself : ∀ i, i ∉ nbr ns i

theorem ginv_knnAddEdge {d n ns} {i j : Nat} (h : GInv d n ns) (hi : i < n)
    (hj : j < n) (hij : i ≠ j) : GInv d n (knnAddEdge ns i j) := by
  have hi' : i < ns.length := h.len ▸ hi
  have hj' : j < ns.length := h.len ▸ hj
  have hch := nbr_knnAddEdge hi' hj' hij
  refine ⟨by rw [length_knnAddEdge]; exact h.len,
    by rw [map_nodeData_knnAddEdge]; exact h.dat, ?_, ?_, ?_⟩
  · intro a b hb
    rw [hch a] at hb
    split_ifs at hb <;> subst_vars <;>
      first
        | exact h.rows _ _ hb
        | (simp only [List.mem_append, List.mem_singleton] at hb
           rcases hb with hb | rfl
           · exact h.rows _ _ hb
           · omega)
  · intro a b
    have hs1 := h.symm a b
    have hs2 := h.symm i j
    rw [hch a, hch b]
    split_ifs <;> subst_vars <;>
      (try simp only [List.mem_append, List.mem_singleton] at *) <;> tauto
  · intro a
    have hn1 := h.nself a
    have hn2 := h.nself i
    have hn3 := h.nself j
    rw [hch a]
    split_ifs <;> subst_vars <;>
      (try simp only [List.mem_append, List.mem_singleton]) <;> tauto

theorem ginv_addEdgeBoth {d n ns} {i j : Nat} (h : GInv d n ns) (hi : i < n)
    (hj : j < n) (hij : i ≠ j) : GInv d n (addEdgeBoth ns i j) := by
  have hi' : i < ns.length := h.len ▸ hi
  have hj' : j < ns.length := h.len ▸ hj
  have hch := nbr_addEdgeBoth hi' hj' hij
  refine ⟨by rw [length_addEdgeBoth]; exact h.len,
    by rw [map_nodeData_addEdgeBoth]; exact h.dat, ?_, ?_, ?_⟩
  · intro a b hb
    rw [hch a] at hb
    split_ifs at hb <;> subst_vars <;>
      first
        | exact h.rows _ _ hb
        | (rcases mem_addOnce.mp hb with rfl | hb
           · omega
           · exact h.rows _ _ hb)
  · intro a b
    have hs1 := h.symm a b
    rw [hch a, hch b]
    split_ifs <;> subst_vars <;>
      (try simp only [mem_addOnce] at *) <;> tauto
  · intro a
    have hn1 := h.nself a
    rw [hch a]
    split_ifs <;> subst_vars <;>
      (try simp only [mem_addOnce]) <;> tauto

theorem ginv_foldKnn {d n} {i : Nat} (hi : i < n) :
    ∀ (l : List (ℚ × Nat)) (ns : List TrackNode), GInv d n ns →
      (∀ p ∈ l, p.2 ≠ i ∧ p.2 < n) →
      GInv d n (l.foldl (fun acc p => knnAddEdge acc i p.2) ns) := by
  intro l
  induction l with
  | nil => exact fun ns h _ => h
  | cons p ps ih =>
    intro ns h hl
    rw [List.foldl_cons]
    refine ih _ (ginv_knnAddEdge h hi (hl p (by simp)).2 (Ne.symm (hl p (by simp)).1)) ?_
    intro q hq
    exact hl q (by simp [hq])

theorem nbr_subset_foldKnn (i : Nat) :
    ∀ (l : List (ℚ × Nat)) (ns : List TrackNode) (k : Nat),
      nbr ns k ⊆ nbr (l.foldl (fun acc p => knnAddEdge acc i p.2) ns) k := by
  intro l
  induction l with
  | nil => exact fun ns k => fun x hx => hx
  | cons p ps ih =>
    intro ns k
    rw [List.foldl_cons]
    exact subset_trans (nbr_subset_knnAddEdge ns i p.2 k) (ih _ k)

theorem mem_nbr_knnAddEdge_self {ns : List TrackNode} {i j : Nat}
    (hi : i < ns.length) (hj : j < ns.length) (hij : i ≠ j) :
    j ∈ nbr (knnAddEdge ns i j) i := by
  rw [nbr_knnAddEdge hi hj hij i]
  by_cases h1 : j ∈ nbr ns i
  · rw [if_pos h1]
    exact h1
  · rw [if_neg h1, if_pos rfl]
    simp

theorem foldKnn_mem {i : Nat} :
    ∀ (l : List (ℚ × Nat)) (ns : List TrackNode), i < ns.length →
      (∀ p ∈ l, p.2 ≠ i ∧ p.2 < ns.length) →
      ∀ p ∈ l, p.2 ∈ nbr (l.foldl (fun acc p => knnAddEdge acc i p.2) ns) i := by
  intro l
  induction l with
  | nil => intro ns _ _ p hp; exact absurd hp (List.not_mem_nil p)
  | cons q qs ih =>
    intro ns hi hl p hp
    rw [List.foldl_cons]
    rcases List.mem_cons.mp hp with rfl | hp
    · refine nbr_subset_foldKnn i qs _ i ?_
      exact mem_nbr_knnAddEdge_self hi (hl p (by simp)).2 (Ne.symm (hl p (by simp)).1)
    · refine ih _ ?_ ?_ p hp
      · rw [length_knnAddEdge]; exact hi
      · intro r hr
        rw [length_knnAddEdge]
        exact hl r (by simp [hr])

theorem knnStep_eq (mask : Mask) (ns : List TrackNode) (i : Nat) :
    knnStep mask ns i =
      ((sortByDist (((List.range ns.length).filter (fun j => j ≠ i)).map
        (fun j => (distSq mask (getNode ns i) (getNode ns j), j)))).take 2).foldl
        (fun acc p => knnAddEdge acc i p.2) ns := rfl

theorem knnStep_pairs {mask : Mask} {ns : List TrackNode} {i : Nat} :
    ∀ p ∈ (sortByDist (((List.range ns.length).filter (fun j => j ≠ i)).map
        (fun j => (distSq mask (getNode ns i) (getNode ns j), j)))).take 2,
      p.2 ≠ i ∧ p.2 < ns.length := by
  intro p hp
  have hp1 : p ∈ sortByDist (((List.range ns.length).filter (fun j => j ≠ i)).map
      (fun j => (distSq mask (getNode ns i) (getNode ns j), j))) :=
    List.mem_of_mem_take hp
  have hp2 := mem_of_mem_sortByDist hp1
  rcases List.mem_map.mp hp2 with ⟨j, hj, rfl⟩
  have hj1 := List.mem_filter.mp hj
  refine ⟨by simpa using hj1.2, List.mem_range.mp hj1.1⟩

theorem ginv_knnStep {d n ns} {mask : Mask} {i : Nat} (h : GInv d n ns)
    (hi : i < n) : GInv d n (knnStep mask ns i) := by
  rw [knnStep_eq]
  refine ginv_foldKnn hi _ ns h ?_
  intro p hp
  have := knnStep_pairs p hp
  rw [h.len] at this
  exact this

theorem nbr_subset_knnStep (mask : Mask) (ns : List TrackNode) (i k : Nat) :
    nbr ns k ⊆ nbr (knnStep mask ns i) k := by
  rw [knnStep_eq]
  exact nbr_subset_foldKnn i _ ns k

theorem ginv_knnPassAux {d n} {mask : Mask} :
    ∀ (l : List Nat) (ns : List TrackNode), GInv d n ns → (∀ i ∈ l, i < n) →
      GInv d n (l.foldl (knnStep mask) ns) := by
  intro l
  induction l with
  | nil => exact fun ns h _ => h
  | cons i is ih =>
    intro ns h hl
    rw [List.foldl_cons]
    exact ih _ (ginv_knnStep h (hl i (by simp))) (fun x hx => hl x (by simp [hx]))

theorem ginv_knnPass {d n ns} {mask : Mask} (h : GInv d n ns) :
    GInv d n (knnPass mask ns) := by
  unfold knnPass
  refine ginv_knnPassAux _ ns h ?_
  intro i hisn
  rw [← h.len]
  exact List.mem_range.mp hisn

theorem nbr_subset_knnPass (mask : Mask) (ns : List TrackNode) (k : Nat) :
    nbr ns k ⊆ nbr (knnPass mask ns) k := by
  unfold knnPass
  generalize List.range ns.length = l
  induction l generalizing ns with
  | nil => exact fun x hx => hx
  | cons i is ih =>
    rw [List.foldl_cons]
    exact subset_trans (nbr_subset_knnStep mask ns i k) (ih _)

theorem reach_mono {ns ns' : List TrackNode} (hsub : ∀ k, nbr ns k ⊆ nbr ns' k)
    {a b : Nat} (h : Reach (adjOf ns) a b) : Reach (adjOf ns') a b := by
  induction h with
  | refl => exact Relation.ReflTransGen.refl
  | tail hab hstep ih =>
    refine Relation.ReflTransGen.tail ih ?_
    unfold Step at hstep ⊢
    rw [adjOf_getD] at hstep ⊢
    exact hsub _ hstep

/-- The invariant carried through the repair loop: the structural invariant
on the nodes, plus facts about the growing `visited` set — its members are
in range, every member is reachable from node 0 in the current graph, and
it is nonempty. -/
structure RInv (d : List (Track × ℚ × ℚ × ℚ × ℚ × ℚ × ℚ)) (n : Nat)
    (st : List TrackNode × List Nat) : Prop where
  g : GInv d n st.1
  vbound : ∀ x ∈ st.2, x < n
  vreach : ∀ x ∈ st.2, Reach (adjOf st.1) 0 x
  vne : st.2 ≠ []

theorem repairStep_spec {d n} {mask : Mask} {st : List TrackNode × List Nat}
    {i : Nat} (h : RInv d n st) (hi : i < n) (hiV : i ∉ st.2) :
    RInv d n (repairStep mask st i) ∧ st.2 ⊆ (repairStep mask st i).2 ∧
      i ∈ (repairStep mask st i).2 ∧
      ∀ x ∈ (repairStep mask st i).2, x = i ∨ x ∈ st.2 := by
  obtain ⟨ns, V⟩ := st
  have hVne : V ≠ [] := h.vne
  have hdne : (V.map (fun j => (distSq mask (getNode ns i) (getNode ns j), j))) ≠ [] := by
    simpa using hVne
  have hsne : sortByDist (V.map (fun j => (distSq mask (getNode ns i) (getNode ns j), j))) ≠ [] := by
    intro hc
    have := sortByDist_length (V.map (fun j => (distSq mask (getNode ns i) (getNode ns j), j)))
    rw [hc] at this
    exact hdne (List.length_eq_zero.mp this.symm)
  obtain ⟨p, r, hpr⟩ : ∃ p r, sortByDist
      (V.map (fun j => (distSq mask (getNode ns i) (getNode ns j), j))) = p :: r := by
    cases hs : sortByDist (V.map (fun j => (distSq mask (getNode ns i) (getNode ns j), j))) with
    | nil => exact absurd hs hsne
    | cons p r => exact ⟨p, r, rfl⟩
  have hstep : repairStep mask (ns, V) i = (addEdgeBoth ns i p.2, addOnce i V) := by
    simp only [repairStep, hpr]
  have hpV : p.2 ∈ V := by
    have hp1 : p ∈ sortByDist (V.map (fun j => (distSq mask (getNode ns i) (getNode ns j), j))) := by
      rw [hpr]; simp
    rcases List.mem_map.mp (mem_of_mem_sortByDist hp1) with ⟨j, hj, rfl⟩
    exact hj
  have hj : p.2 < n := h.vbound p.2 hpV
  have hij : i ≠ p.2 := fun hc => hiV (hc ▸ hpV)
  have hgrow : ∀ k, nbr ns k ⊆ nbr (addEdgeBoth ns i p.2) k :=
    fun k => nbr_subset_addEdgeBoth ns i p.2 k
  have hg' : GInv d n (addEdgeBoth ns i p.2) := ginv_addEdgeBoth h.g hi hj hij
  rw [hstep]
  refine ⟨⟨hg', ?_, ?_, addOnce_ne_nil i V hVne⟩, ?_, mem_addOnce_self i V, ?_⟩
  · intro x hx
    rcases mem_addOnce.mp hx with rfl | hx
    · exact hi
    · exact h.vbound x hx
  · intro x hx
    rcases mem_addOnce.mp hx with hxi | hx
    · subst hxi
      have hreachj : Reach (adjOf (addEdgeBoth ns x p.2)) 0 p.2 :=
        reach_mono hgrow (h.vreach p.2 hpV)
      refine Relation.ReflTransGen.tail hreachj ?_
      unfold Step
      rw [adjOf_getD]
      have hi' : x < ns.length := h.g.len ▸ hi
      have hj' : p.2 < ns.length := h.g.len ▸ hj
      rw [nbr_addEdgeBoth hi' hj' hij p.2, if_neg (Ne.symm hij), if_pos rfl]
      exact mem_addOnce_self x _
    · exact reach_mono hgrow (h.vreach x hx)
  · exact subset_addOnce i V
  · intro x hx
    exact mem_addOnce.mp hx

theorem repair_fold {d n} {mask : Mask} :
    ∀ (l : List Nat) (st : List TrackNode × List Nat), RInv d n st → l.Nodup →
      (∀ x ∈ l, x < n ∧ x ∉ st.2) →
      RInv d n (l.foldl (repairStep mask) st) ∧
        st.2 ⊆ (l.foldl (repairStep mask) st).2 ∧
        ∀ x ∈ l, x ∈ (l.foldl (repairStep mask) st).2 := by
  intro l
  induction l with
  | nil =>
    intro st h _ _
    exact ⟨h, fun x hx => hx, fun x hx => absurd hx (List.not_mem_nil x)⟩
  | cons i is ih =>
    intro st h hnd hl
    rw [List.foldl_cons]
    obtain ⟨h', hsub, hmem, hchar⟩ := repairStep_spec h (hl i (by simp)).1 (hl i (by simp)).2
    have hnd' : is.Nodup := (List.nodup_cons.mp hnd).2
    have hini : i ∉ is := (List.nodup_cons.mp hnd).1
    have hl' : ∀ x ∈ is, x < n ∧ x ∉ (repairStep mask st i).2 := by
      intro x hx
      refine ⟨(hl x (by simp [hx])).1, ?_⟩
      intro hc
      rcases hchar x hc with rfl | h1
      · exact hini hx
      · exact (hl x (by simp [hx])).2 h1
    obtain ⟨hf, hfsub, hfmem⟩ := ih _ h' hnd' hl'
    refine ⟨hf, subset_trans hsub hfsub, ?_⟩
    intro x hx
    rcases List.mem_cons.mp hx with rfl | hx
    · exact hfsub hmem
    · exact hfmem x hx

theorem startStack_of_ne_nil {ns : List TrackNode} (h : ns ≠ []) :
    startStack ns = [0] := by
  cases ns with
  | nil => exact absurd rfl h
  | cons nd nds => rfl

theorem ensure_spec {d n} (mask : Mask) (ns : List TrackNode)
    (h : GInv d n ns) : GInv d n (_ensure_connectivity mask ns) ∧
      is_connected (_ensure_connectivity mask ns) = true := by
  have hrows' : ∀ i, ∀ j ∈ nbr ns i, j < ns.length := by
    rw [h.len]
    exact h.rows
  by_cases hlen : (dfsVisit (adjOf ns) [] (startStack ns)).length = ns.length
  · have hres : _ensure_connectivity mask ns = ns := by
      simp only [_ensure_connectivity, if_pos hlen]
    rw [hres]
    refine ⟨h, ?_⟩
    unfold is_connected
    rw [hlen]
    simp
  · have hne : ns ≠ [] := by
      intro hc
      subst hc
      exact hlen (by simp [dfsVisit, startStack, adjOf, dfsGo_nil])
    have hss : startStack ns = [0] := startStack_of_ne_nil hne
    have h0V : 0 ∈ dfsVisit (adjOf ns) [] (startStack ns) := by
      rw [hss]
      exact stack_subset_dfsVisit _ [] [0] 0 (by simp)
    have hVb : ∀ x ∈ dfsVisit (adjOf ns) [] (startStack ns), x < n := by
      intro x hx
      have := bound_dfsVisit (adjOf ns) (rows_bound_adjOf hrows') [] (startStack ns)
        (by intro y hy; exact absurd hy (List.not_mem_nil y))
        (by intro y hy
            rw [hss] at hy
            simp only [List.mem_singleton] at hy
            subst hy
            rw [adjOf_length]
            rw [List.length_pos]
            exact hne) x hx
      rw [adjOf_length, h.len] at this
      exact this
    have hVreach : ∀ x ∈ dfsVisit (adjOf ns) [] (startStack ns), Reach (adjOf ns) 0 x := by
      intro x hx
      rcases sound_dfsVisit (adjOf ns) [] (startStack ns) x hx with hc | ⟨s, hs, hr⟩
      · exact absurd hc (List.not_mem_nil x)
      · rw [hss] at hs
        simp only [List.mem_singleton] at hs
        subst hs
        exact hr
    have hR : RInv d n (ns, dfsVisit (adjOf ns) [] (startStack ns)) := by
      refine ⟨h, hVb, hVreach, ?_⟩
      intro hc
      have h0nil : 0 ∈ ([] : List Nat) := by
        rw [← hc]
        exact h0V
      exact List.not_mem_nil 0 h0nil
    have hnd : ((List.range ns.length).filter
        (fun i => i ∉ dfsVisit (adjOf ns) [] (startStack ns))).Nodup :=
      (List.nodup_range _).filter _
    have hl : ∀ x ∈ (List.range ns.length).filter
        (fun i => i ∉ dfsVisit (adjOf ns) [] (startStack ns)),
        x < n ∧ x ∉ dfsVisit (adjOf ns) [] (startStack ns) := by
      intro x hx
      have hx' := List.mem_filter.mp hx
      refine ⟨?_, by simpa using hx'.2⟩
      have := List.mem_range.mp hx'.1
      rw [h.len] at this
      exact this
    obtain ⟨hf, hfsub, hfmem⟩ := repair_fold
      ((List.range ns.length).filter (fun i => i ∉ dfsVisit (adjOf ns) [] (startStack ns)))
      (ns, dfsVisit (adjOf ns) [] (startStack ns)) hR hnd hl
    have hres : _ensure_connectivity mask ns =
        (((List.range ns.length).filter
          (fun i => i ∉ dfsVisit (adjOf ns) [] (startStack ns))).foldl
          (repairStep mask) (ns, dfsVisit (adjOf ns) [] (startStack ns))).1 := by
      simp only [_ensure_connectivity, if_neg hlen]
    rw [hres]
    refine ⟨hf.g, is_connected_eq_true ?_ ?_⟩
    · rw [hf.g.len]
      exact hf.g.rows
    · intro x hx
      rw [hf.g.len] at hx
      by_cases hxV : x ∈ dfsVisit (adjOf ns) [] (startStack ns)
      · exact hf.vreach x (hfsub hxV)
      · refine hf.vreach x (hfmem x ?_)
        refine List.mem_filter.mpr ⟨?_, by simpa using hxV⟩
        rw [List.mem_range, h.len]
        exact hx

theorem build_graph_connected {d n} (mask : Mask) (ns : List TrackNode)
    (h : GInv d n ns) : is_connected (build_graph mask ns) = true :=
  (ensure_spec mask (knnPass mask ns) (ginv_knnPass h)).2

theorem ginv_build_graph {d n} (mask : Mask) (ns : List TrackNode)
    (h : GInv d n ns) : GInv d n (build_graph mask ns) :=
  (ensure_spec mask (knnPass mask ns) (ginv_knnPass h)).1

theorem ginv_initial (ns : List TrackNode) (hempty : ∀ i, nbr ns i = []) :
    GInv (ns.map nodeData) ns.length ns := by
  refine ⟨rfl, rfl, ?_, ?_, ?_⟩
  · intro i j hj
    rw [hempty i] at hj
    exact absurd hj (List.not_mem_nil j)
  · intro i j
    rw [hempty i, hempty j]
    simp
  · intro i
    rw [hempty i]
    exact List.not_mem_nil i

theorem normalize_some_iff {t : Track} {ts : List Track} {ns : List TrackNode} :
    _normalize_features (t :: ts) = some ns ↔
      max_loudness t ts ≠ 0 ∧
        ns = (t :: ts).map (normalizeTrack (max_loudness t ts) (max_energy (t :: ts))
          (max_instrumentalness (t :: ts)) (max_tempo (t :: ts))
          (max_valence (t :: ts)) (max_danceability (t :: ts))) := by
  unfold _normalize_features
  by_cases hm : max_loudness t ts = 0
  · simp [hm]
  · simp only [hm, if_neg hm, if_false]
    constructor
    · intro h
      exact ⟨hm, (Option.some.injEq _ _ ▸ h).symm⟩
    · intro ⟨_, h⟩
      rw [h]

theorem normalize_length {tracks : List Track} {ns : List TrackNode}
    (h : _normalize_features tracks = some ns) : ns.length = tracks.length := by
  cases tracks with
  | nil =>
    simp only [_normalize_features, Option.some.injEq] at h
    rw [← h]
    rfl
  | cons t ts =>
    obtain ⟨_, rfl⟩ := normalize_some_iff.mp h
    rw [List.length_map]

theorem normalize_empty_nbr {tracks : List Track} {ns : List TrackNode}
    (h : _normalize_features tracks = some ns) : ∀ i, nbr ns i = [] := by
  intro i
  rcases lt_or_le i ns.length with hlt | hle
  · cases tracks with
    | nil =>
      simp only [_normalize_features, Option.some.injEq] at h
      rw [← h] at hlt
      exact absurd hlt (by simp)
    | cons t ts =>
      obtain ⟨_, rfl⟩ := normalize_some_iff.mp h
      unfold nbr getNode
      rw [List.getD_eq_getElem?_getD, List.getElem?_eq_getElem hlt]
      have hlt' : i < (t :: ts).length := by
        rw [List.length_map] at hlt
        exact hlt
      simp only [Option.getD_some]
      rw [List.getElem_map]
      rfl
  · exact nbr_of_le hle

theorem getNode_normalize {t : Track} {ts : List Track} {ns : List TrackNode}
    (h : _normalize_features (t :: ts) = some ns) {k : Nat} (hk : k < ns.length) :
    getNode ns k = normalizeTrack (max_loudness t ts) (max_energy (t :: ts))
      (max_instrumentalness (t :: ts)) (max_tempo (t :: ts))
      (max_valence (t :: ts)) (max_danceability (t :: ts)) (getTrack (t :: ts) k) := by
  obtain ⟨_, rfl⟩ := normalize_some_iff.mp h
  have hk' : k < (t :: ts).length := by
    rw [List.length_map] at hk
    exact hk
  unfold getNode getTrack
  rw [List.getD_eq_getElem?_getD, List.getElem?_eq_getElem hk,
    List.getD_eq_getElem?_getD, List.getElem?_eq_getElem hk']
  simp only [Option.getD_some]
  rw [List.getElem_map]

theorem foldMaxQ_cons (f : Track → ℚ) (init : ℚ) (x : Track) (xs : List Track) :
    foldMaxQ f init (x :: xs) = foldMaxQ f (if init < f x then f x else init) xs := rfl

theorem le_foldMaxQ_init (f : Track → ℚ) :
    ∀ (l : List Track) (init : ℚ), init ≤ foldMaxQ f init l := by
  intro l
  induction l with
  | nil => exact fun init => le_refl init
  | cons x xs ih =>
    intro init
    rw [foldMaxQ_cons]
    refine le_trans ?_ (ih _)
    by_cases h : init < f x
    · rw [if_pos h]
      exact le_of_lt h
    · rw [if_neg h]

theorem le_foldMaxQ (f : Track → ℚ) :
    ∀ (l : List Track) (init : ℚ) (t : Track), t ∈ l → f t ≤ foldMaxQ f init l := by
  intro l
  induction l with
  | nil => exact fun init t ht => absurd ht (List.not_mem_nil t)
  | cons x xs ih =>
    intro init t ht
    rw [foldMaxQ_cons]
    rcases List.mem_cons.mp ht with rfl | ht
    · refine le_trans ?_ (le_foldMaxQ_init f xs _)
      by_cases h : init < f t
      · rw [if_pos h]
      · rw [if_neg h]
        exact le_of_not_lt h
    · exact ih _ t ht

theorem foldMaxQ_attained (f : Track → ℚ) :
    ∀ (l : List Track) (init : ℚ),
      foldMaxQ f init l = init ∨ ∃ t ∈ l, foldMaxQ f init l = f t := by
  intro l
  induction l with
  | nil => exact fun init => Or.inl rfl
  | cons x xs ih =>
    intro init
    rw [foldMaxQ_cons]
    rcases ih (if init < f x then f x else init) with h | ⟨t, ht, h⟩
    · by_cases hx : init < f x
      · exact Or.inr ⟨x, by simp, by rw [h, if_pos hx]⟩
      · exact Or.inl (by rw [h, if_neg hx])
    · exact Or.inr ⟨t, by simp [ht], h⟩

theorem max_loudness_le (t : Track) (ts : List Track) :
    ∀ u ∈ t :: ts, u.loudness ≤ max_loudness t ts :=
  fun u hu => le_foldMaxQ (fun v => v.loudness) (t :: ts) t.loudness u hu

theorem max_loudness_attained (t : Track) (ts : List Track) :
    ∃ u ∈ t :: ts, max_loudness t ts = u.loudness := by
  rcases foldMaxQ_attained (fun v => v.loudness) (t :: ts) t.loudness with h | ⟨u, hu, h⟩
  · exact ⟨t, by simp, h⟩
  · exact ⟨u, hu, h⟩

theorem max_loudness_neg {t : Track} {ts : List Track}
    (hneg : ∀ u ∈ t :: ts, u.loudness < 0) : max_loudness t ts < 0 := by
  rcases max_loudness_attained t ts with ⟨u, hu, h⟩
  rw [h]
  exact hneg u hu

theorem foldMaxQ_zero_nonneg (f : Track → ℚ) (l : List Track) :
    0 ≤ foldMaxQ f 0 l :=
  le_foldMaxQ_init f l 0

theorem ratio_norm_nonneg {raw maxv : ℚ} (h0 : 0 ≤ raw) (hm : 0 ≤ maxv) :
    0 ≤ (if maxv = 0 then 0 else raw / maxv) := by
  by_cases h : maxv = 0
  · rw [if_pos h]
  · rw [if_neg h]
    exact div_nonneg h0 hm

theorem ratio_norm_le_one {raw maxv : ℚ} (hle : raw ≤ maxv) (hm : 0 ≤ maxv) :
    (if maxv = 0 then 0 else raw / maxv) ≤ 1 := by
  by_cases h : maxv = 0
  · rw [if_pos h]
    exact zero_le_one
  · rw [if_neg h]
    have hpos : 0 < maxv := lt_of_le_of_ne hm (Ne.symm h)
    exact (div_le_one hpos).mpr hle

theorem ratio_norm_max {maxv : ℚ} (h : maxv ≠ 0) :
    (if maxv = 0 then 0 else maxv / maxv) = 1 := by
  rw [if_neg h]
  exact div_self h

theorem ratio_norm_degenerate {raw maxv : ℚ} (h : maxv = 0) :
    (if maxv = 0 then 0 else raw / maxv) = 0 := by
  rw [if_pos h]

theorem nodup_sub_length {xs l : List Nat} (hnd : xs.Nodup)
    (hsub : ∀ x ∈ xs, x ∈ l) : xs.length ≤ l.length := by
  calc xs.length = xs.toFinset.card := (List.toFinset_card_of_nodup hnd).symm
    _ ≤ l.toFinset.card := by
        refine Finset.card_le_card ?_
        intro x hx
        rw [List.mem_toFinset] at hx ⊢
        exact hsub x hx
    _ ≤ l.length := l.toFinset_card_le

theorem length_filter_ne {n i : Nat} (hi : i < n) :
    ((List.range n).filter (fun j => j ≠ i)).length = n - 1 := by
  have hco : (List.range n).filter (fun j => j ≠ i)
      = (List.range n).filter (fun j => j != i) := by
    refine List.filter_congr ?_
    intro x hx
    by_cases h : x = i <;> simp [h]
  rw [hco, ← (List.nodup_range n).erase_eq_filter i,
    List.length_erase_of_mem (List.mem_range.mpr hi), List.length_range]

theorem length_foldKnn (i : Nat) :
    ∀ (l : List (ℚ × Nat)) (ns : List TrackNode),
      (l.foldl (fun acc p => knnAddEdge acc i p.2) ns).length = ns.length := by
  intro l
  induction l with
  | nil => exact fun ns => rfl
  | cons p ps ih =>
    intro ns
    rw [List.foldl_cons, ih, length_knnAddEdge]

theorem length_knnStep (mask : Mask) (ns : List TrackNode) (i : Nat) :
    (knnStep mask ns i).length = ns.length := by
  rw [knnStep_eq, length_foldKnn]

theorem length_foldKnnStep (mask : Mask) :
    ∀ (l : List Nat) (ns : List TrackNode),
      (l.foldl (knnStep mask) ns).length = ns.length := by
  intro l
  induction l with
  | nil => exact fun ns => rfl
  | cons i is ih =>
    intro ns
    rw [List.foldl_cons, ih, length_knnStep]

theorem length_knnPass (mask : Mask) (ns : List TrackNode) :
    (knnPass mask ns).length = ns.length := by
  unfold knnPass
  rw [length_foldKnnStep]

theorem knnStep_two_neighbours {mask : Mask} {ns : List TrackNode} {i : Nat}
    (hi : i < ns.length) :
    ∃ js : List Nat, js.Nodup ∧ js.length = min 2 (ns.length - 1) ∧
      ∀ j ∈ js, j ∈ nbr (knnStep mask ns i) i := by
  refine ⟨((sortByDist (((List.range ns.length).filter (fun j => j ≠ i)).map
    (fun j => (distSq mask (getNode ns i) (getNode ns j), j)))).take 2).map Prod.snd,
    ?_, ?_, ?_⟩
  · have h1 : ((((List.range ns.length).filter (fun j => j ≠ i)).map
        (fun j => (distSq mask (getNode ns i) (getNode ns j), j))).map Prod.snd)
        = ((List.range ns.length).filter (fun j => j ≠ i)) := by
      rw [List.map_map]
      exact List.map_id _
    have h2 : ((sortByDist (((List.range ns.length).filter (fun j => j ≠ i)).map
        (fun j => (distSq mask (getNode ns i) (getNode ns j), j)))).map Prod.snd).Nodup := by
      refine ((sortByDist_perm _).map Prod.snd).nodup_iff.mpr ?_
      rw [h1]
      exact (List.nodup_range _).filter _
    rw [List.map_take]
    exact h2.sublist (List.take_sublist 2 _)
  · rw [List.length_map, List.length_take, sortByDist_length, List.length_map,
      length_filter_ne hi]
  · intro j hj
    rcases List.mem_map.mp hj with ⟨p, hp, rfl⟩
    rw [knnStep_eq]
    exact foldKnn_mem _ ns hi (fun q hq => knnStep_pairs q hq) p hp

theorem nbr_subset_repairStep (mask : Mask) (st : List TrackNode × List Nat)
    (i k : Nat) : nbr st.1 k ⊆ nbr (repairStep mask st i).1 k := by
  cases hs : sortByDist (st.2.map
      (fun j => (distSq mask (getNode st.1 i) (getNode st.1 j), j))) with
  | nil =>
    simp only [repairStep, hs]
    exact fun x hx => hx
  | cons p r =>
    simp only [repairStep, hs]
    exact nbr_subset_addEdgeBoth st.1 i p.2 k

theorem nbr_subset_repairFold (mask : Mask) :
    ∀ (l : List Nat) (st : List TrackNode × List Nat) (k : Nat),
      nbr st.1 k ⊆ nbr (l.foldl (repairStep mask) st).1 k := by
  intro l
  induction l with
  | nil => exact fun st k x hx => hx
  | cons i is ih =>
    intro st k
    rw [List.foldl_cons]
    exact subset_trans (nbr_subset_repairStep mask st i k) (ih _ k)

theorem nbr_subset_ensure (mask : Mask) (ns : List TrackNode) (k : Nat) :
    nbr ns k ⊆ nbr (_ensure_connectivity mask ns) k := by
  by_cases hlen : (dfsVisit (adjOf ns) [] (startStack ns)).length = ns.length
  · simp only [_ensure_connectivity, if_pos hlen]
    exact fun x hx => hx
  · simp only [_ensure_connectivity, if_neg hlen]
    exact nbr_subset_repairFold mask _ (ns, _) k

theorem nbr_subset_foldKnnStep (mask : Mask) :
    ∀ (l : List Nat) (ns : List TrackNode) (k : Nat),
      nbr ns k ⊆ nbr (l.foldl (knnStep mask) ns) k := by
  intro l
  induction l with
  | nil => exact fun ns k x hx => hx
  | cons i is ih =>
    intro ns k
    rw [List.foldl_cons]
    exact subset_trans (nbr_subset_knnStep mask ns i k) (ih _ k)

theorem length_repairStep (mask : Mask) (st : List TrackNode × List Nat) (i : Nat) :
    (repairStep mask st i).1.length = st.1.length := by
  cases hs : sortByDist (st.2.map
      (fun j => (distSq mask (getNode st.1 i) (getNode st.1 j), j))) with
  | nil => simp only [repairStep, hs]
  | cons p r =>
    simp only [repairStep, hs]
    exact length_addEdgeBoth st.1 i p.2

theorem length_repairFold (mask : Mask) :
    ∀ (l : List Nat) (st : List TrackNode × List Nat),
      (l.foldl (repairStep mask) st).1.length = st.1.length := by
  intro l
  induction l with
  | nil => exact fun st => rfl
  | cons i is ih =>
    intro st
    rw [List.foldl_cons, ih, length_repairStep]

theorem length_ensure (mask : Mask) (ns : List TrackNode) :
    (_ensure_connectivity mask ns).length = ns.length := by
  by_cases hlen : (dfsVisit (adjOf ns) [] (startStack ns)).length = ns.length
  · simp only [_ensure_connectivity, if_pos hlen]
  · simp only [_ensure_connectivity, if_neg hlen]
    rw [length_repairFold]

theorem length_build_graph (mask : Mask) (ns : List TrackNode) :
    (build_graph mask ns).length = ns.length := by
  unfold build_graph
  rw [length_ensure, length_knnPass]

theorem build_graph_min_degree (mask : Mask) (ns : List TrackNode) :
    ∀ i, i < ns.length → min 2 (ns.length - 1) ≤ (nbr (build_graph mask ns) i).length := by
  intro i hi
  obtain ⟨s, t, hst⟩ := List.append_of_mem (List.mem_range.mpr hi)
  have hm : (s.foldl (knnStep mask) ns).length = ns.length := length_foldKnnStep mask s ns
  have hi' : i < (s.foldl (knnStep mask) ns).length := by rw [hm]; exact hi
  obtain ⟨js, hnd, hlenjs, hmem⟩ := @knnStep_two_neighbours mask (s.foldl (knnStep mask) ns) i hi'
  have hpass : knnPass mask ns
      = t.foldl (knnStep mask) (knnStep mask (s.foldl (knnStep mask) ns) i) := by
    unfold knnPass
    rw [hst, List.foldl_append, List.foldl_cons]
  have hsub : ∀ j ∈ js, j ∈ nbr (build_graph mask ns) i := by
    intro j hj
    unfold build_graph
    refine nbr_subset_ensure mask _ i ?_
    rw [hpass]
    exact nbr_subset_foldKnnStep mask t _ i (hmem j hj)
  have := nodup_sub_length hnd hsub
  rw [hlenjs, hm] at this
  exact this

theorem distSq_nonneg (mask : Mask) (node1 node2 : TrackNode) :
    0 ≤ distSq mask node1 node2 := by
  unfold distSq
  have hsq : ∀ x : ℚ, 0 ≤ x ^ 2 := fun x => sq_nonneg x
  repeat refine add_nonneg ?_ ?_
  all_goals
    first
      | exact le_refl 0
      | (split
         · exact hsq _
         · exact le_refl 0)

theorem _distance_le_iff (mask : Mask) (a b c d : TrackNode) :
    _distance mask a b ≤ _distance mask c d ↔ distSq mask a b ≤ distSq mask c d := by
  unfold _distance
  constructor
  · intro h
    by_contra hc
    push_neg at hc
    have h0 : (0 : ℝ) ≤ ((distSq mask c d : ℚ) : ℝ) := by
      exact_mod_cast distSq_nonneg mask c d
    have h1 : ((distSq mask c d : ℚ) : ℝ) < ((distSq mask a b : ℚ) : ℝ) := by
      exact_mod_cast hc
    exact absurd h (not_le.mpr (Real.sqrt_lt_sqrt h0 h1))
  · intro h
    exact Real.sqrt_le_sqrt (by exact_mod_cast h)

theorem _distance_symm (mask : Mask) (a b : TrackNode) :
    _distance mask a b = _distance mask b a := by
  unfold _distance distSq
  congr 1
  push_cast
  ring_nf

theorem map_nodeData_foldKnn (i : Nat) :
    ∀ (l : List (ℚ × Nat)) (ns : List TrackNode),
      (l.foldl (fun acc p => knnAddEdge acc i p.2) ns).map nodeData = ns.map nodeData := by
  intro l
  induction l with
  | nil => exact fun ns => rfl
  | cons p ps ih =>
    intro ns
    rw [List.foldl_cons, ih, map_nodeData_knnAddEdge]

theorem map_nodeData_knnStep (mask : Mask) (ns : List TrackNode) (i : Nat) :
    (knnStep mask ns i).map nodeData = ns.map nodeData := by
  rw [knnStep_eq, map_nodeData_foldKnn]

theorem map_nodeData_knnPass (mask : Mask) (ns : List TrackNode) :
    (knnPass mask ns).map nodeData = ns.map nodeData := by
  unfold knnPass
  generalize List.range ns.length = l
  induction l generalizing ns with
  | nil => rfl
  | cons i is ih =>
    rw [List.foldl_cons, ih, map_nodeData_knnStep]

theorem map_nodeData_repairStep (mask : Mask) (st : List TrackNode × List Nat)
    (i : Nat) : (repairStep mask st i).1.map nodeData = st.1.map nodeData := by
  cases hs : sortByDist (st.2.map
      (fun j => (distSq mask (getNode st.1 i) (getNode st.1 j), j))) with
  | nil => simp only [repairStep, hs]
  | cons p r =>
    simp only [repairStep, hs]
    exact map_nodeData_addEdgeBoth st.1 i p.2

theorem map_nodeData_repairFold (mask : Mask) :
    ∀ (l : List Nat) (st : List TrackNode × List Nat),
      (l.foldl (repairStep mask) st).1.map nodeData = st.1.map nodeData := by
  intro l
  induction l with
  | nil => exact fun st => rfl
  | cons i is ih =>
    intro st
    rw [List.foldl_cons, ih, map_nodeData_repairStep]

theorem map_nodeData_ensure (mask : Mask) (ns : List TrackNode) :
    (_ensure_connectivity mask ns).map nodeData = ns.map nodeData := by
  by_cases hlen : (dfsVisit (adjOf ns) [] (startStack ns)).length = ns.length
  · simp only [_ensure_connectivity, if_pos hlen]
  · simp only [_ensure_connectivity, if_neg hlen]
    rw [map_nodeData_repairFold]

theorem map_nodeData_build_graph (mask : Mask) (ns : List TrackNode) :
    (build_graph mask ns).map nodeData = ns.map nodeData := by
  unfold build_graph
  rw [map_nodeData_ensure, map_nodeData_knnPass]

theorem getTrack_mem {tracks : List Track} {k : Nat} (hk : k < tracks.length) :
    getTrack tracks k ∈ tracks := by
  unfold getTrack
  rw [List.getD_eq_getElem?_getD, List.getElem?_eq_getElem hk]
  exact List.getElem_mem hk

theorem ratio_val_props {raw maxv : ℚ} (h0 : 0 ≤ raw) (hle : raw ≤ maxv)
    (hm : 0 ≤ maxv) :
    0 ≤ (if maxv = 0 then 0 else raw / maxv) ∧
      (if maxv = 0 then 0 else raw / maxv) ≤ 1 ∧
      (maxv = 0 → (if maxv = 0 then 0 else raw / maxv) = 0) ∧
      (maxv ≠ 0 → raw = maxv → (if maxv = 0 then 0 else raw / maxv) = 1) := by
  refine ⟨ratio_norm_nonneg h0 hm, ratio_norm_le_one hle hm, fun h => ratio_norm_degenerate h, ?_⟩
  intro hne hmax
  rw [hmax]
  exact ratio_norm_max hne

theorem build_graph_singleton (mask : Mask) (x : TrackNode) (hx : x.neighbours = []) :
    build_graph mask [x] = [x] := by
  have hknn : knnPass mask [x] = [x] := rfl
  have hadj : adjOf [x] = [[]] := by
    simp [adjOf, hx]
  unfold build_graph
  rw [hknn]
  simp only [_ensure_connectivity]
  rw [hadj]
  have hdfs : dfsVisit [[]] [] (startStack [x]) = [0] := rfl
  rw [hdfs]
  simp

theorem is_connected_singleton (x : TrackNode) (hx : x.neighbours = []) :
    is_connected [x] = true := by
  unfold is_connected
  have hadj : adjOf [x] = [[]] := by
    simp [adjOf, hx]
  rw [hadj]
  rfl

theorem mkTracksGraph_some {tracks : List Track} {g : List TrackNode}
    (h : mkTracksGraph tracks = some g) :
    ∃ ns, _normalize_features tracks = some ns ∧ g = build_graph defaultMask ns := by
  unfold mkTracksGraph at h
  cases hn : _normalize_features tracks with
  | none =>
    rw [hn] at h
    exact absurd h (by simp)
  | some ns =>
    rw [hn] at h
    simp only [Option.map_some'] at h
    exact ⟨ns, rfl, (Option.some.injEq _ _ ▸ h).symm⟩

theorem normalize_none_of_max_zero (t : Track) (ts : List Track)
    (h : max_loudness t ts = 0) : _normalize_features (t :: ts) = none := by
  unfold _normalize_features
  simp [h]

/-- A sample track with strictly negative loudness and nonzero features. -/
def wtrackA : Track :=
  { id := "a"
    uri := "a"
    name := "a"
    loudness := -1
    energy := 1
    instrumentalness := 0
    tempo := 100
    valence := 0
    danceability := 0 }

/-- A second sample track, with a more negative loudness. -/
def wtrackB : Track :=
  { id := "b"
    uri := "b"
    name := "b"
    loudness := -10
    energy := 2
    instrumentalness := 0
    tempo := 100
    valence := 0
    danceability := 0 }

/-- The nodes `_normalize_features` produces for `[wtrackA, wtrackB]`. -/
def c2nodes : List TrackNode :=
  [ { track := wtrackA
      loudness_dimention := 0
      energy_dimention := 1/2
      instrumentalness_dimention := 0
      tempo_dimention := 1
      valence_dimention := 0
      danceability_dimention := 0
      neighbours := [] },
    { track := wtrackB
      loudness_dimention := -9
      energy_dimention := 1
      instrumentalness_dimention := 0
      tempo_dimention := 1
      valence_dimention := 0
      danceability_dimention := 0
      neighbours := [] } ]

/-- The graph `TracksGraph.__init__` builds from `[wtrackA, wtrackB]`. -/
def wgraphAB : List TrackNode :=
  [ { track := wtrackA
      loudness_dimention := 0
      energy_dimention := 1/2
      instrumentalness_dimention := 0
      tempo_dimention := 1
      valence_dimention := 0
      danceability_dimention := 0
      neighbours := [1] },
    { track := wtrackB
      loudness_dimention := -9
      energy_dimention := 1
      instrumentalness_dimention := 0
      tempo_dimention := 1
      valence_dimention := 0
      danceability_dimention := 0
      neighbours := [0] } ]

/-- A track whose every feature, loudness included, is `0`. -/
def zeroTrack : Track :=
  { id := "z"
    uri := "z"
    name := "z"
    loudness := 0
    energy := 0
    instrumentalness := 0
    tempo := 0
    valence := 0
    danceability := 0 }

/-- A track of the two-cluster scenario: all features fixed except energy. -/
def c4track (e : ℚ) : Track :=
  { id := "c"
    uri := "c"
    name := "c"
    loudness := -1
    energy := e
    instrumentalness := 0
    tempo := 100
    valence := 0
    danceability := 0 }

/-- Two energy clusters of three items each, far apart: the k=2 pass yields
two disconnected triangles `{0,1,2}` and `{3,4,5}`. -/
def c4tracks : List Track :=
  [c4track 1, c4track 2, c4track 3, c4track 100, c4track 101, c4track 102]

/-- C1: for every item set (including sizes 0 and 1), after graph
construction (the k-nearest pass followed by the connectivity repair pass)
the connectivity check returns true: every node is reachable from the first
node via neighbour edges, with the empty and singleton graphs trivially
connected. -/
theorem C1_graph_connected (tracks : List Track) (g : List TrackNode)
    (h : mkTracksGraph tracks = some g) : is_connected g = true := by
  obtain ⟨ns, hn, rfl⟩ := mkTracksGraph_some h
  exact build_graph_connected defaultMask ns (ginv_initial ns (normalize_empty_nbr hn))

/-- C1 witness: the two-track graph is built and passes the check. -/
theorem C1_witness :
    mkTracksGraph [wtrackA, wtrackB] = some wgraphAB ∧ is_connected wgraphAB = true :=
  ⟨by with_unfolding_all decide,
   C1_graph_connected [wtrackA, wtrackB] wgraphAB (by with_unfolding_all decide)⟩

/-- C5: for every item set and every pair of nodes `i` and `j`, after graph
construction `j` is in `i`'s neighbour set iff `i` is in `j`'s: both passes
insert the two directed adjacency entries of every edge in lock-step. -/
theorem C5_edge_symmetric (tracks : List Track) (g : List TrackNode)
    (h : mkTracksGraph tracks = some g) (i j : Nat) :
    j ∈ nbr g i ↔ i ∈ nbr g j := by
  obtain ⟨ns, hn, rfl⟩ := mkTracksGraph_some h
  exact (ginv_build_graph defaultMask ns
    (ginv_initial ns (normalize_empty_nbr hn))).symm i j

/-- C5 witness: symmetry of the edge of the two-track graph. -/
theorem C5_witness :
    mkTracksGraph [wtrackA, wtrackB] = some wgraphAB ∧
      (1 ∈ nbr wgraphAB 0 ↔ 0 ∈ nbr wgraphAB 1) :=
  ⟨by with_unfolding_all decide,
   C5_edge_symmetric [wtrackA, wtrackB] wgraphAB (by with_unfolding_all decide) 0 1⟩

/-- C6: for every item set, after graph construction no node appears in its
own neighbour set: the k-nearest pass excludes the node itself from the
distance candidates, and the repair pass only connects an unvisited node to
a visited one, never to itself. -/
theorem C6_no_self_loops (tracks : List Track) (g : List TrackNode)
    (h : mkTracksGraph tracks = some g) (i : Nat) : i ∉ nbr g i := by
  obtain ⟨ns, hn, rfl⟩ := mkTracksGraph_some h
  exact (ginv_build_graph defaultMask ns
    (ginv_initial ns (normalize_empty_nbr hn))).nself i

/-- C6 witness: node 0 of the two-track graph is not its own neighbour. -/
theorem C6_witness :
    mkTracksGraph [wtrackA, wtrackB] = some wgraphAB ∧ 0 ∉ nbr wgraphAB 0 :=
  ⟨by with_unfolding_all decide,
   C6_no_self_loops [wtrackA, wtrackB] wgraphAB (by with_unfolding_all decide) 0⟩

/-- C9: edge formation (the k-nearest pass and the repair pass) mutates only
the nodes' neighbour sets: every node's six normalized dimension values, its
track reference, and the order and membership of the node list are identical
before and after `build_graph` runs (for any relevance mask, so in
particular for the constructor's). -/
theorem C9_frame (mask : Mask) (ns : List TrackNode) :
    (build_graph mask ns).map nodeData = ns.map nodeData :=
  map_nodeData_build_graph mask ns

/-- C10: for every item set whose graph has `n ≥ 2` nodes, after
construction every node's neighbour set has at least `min 2 (n - 1)`
elements: the k-nearest pass gives each node a mutual edge to each of its
(up to) two closest other nodes, and no later step removes a neighbour. -/
theorem C10_min_degree (tracks : List Track) (g : List TrackNode)
    (h : mkTracksGraph tracks = some g) (hn : 2 ≤ g.length) (i : Nat)
    (hi : i < g.length) : min 2 (g.length - 1) ≤ (nbr g i).length := by
  obtain ⟨ns, hnorm, rfl⟩ := mkTracksGraph_some h
  rw [length_build_graph] at hi ⊢
  exact build_graph_min_degree defaultMask ns i hi

/-- C10 witness: in the two-node graph each node has at least one
neighbour. -/
theorem C10_witness :
    mkTracksGraph [wtrackA, wtrackB] = some wgraphAB ∧ 2 ≤ wgraphAB.length ∧
      min 2 (wgraphAB.length - 1) ≤ (nbr wgraphAB 0).length :=
  ⟨by with_unfolding_all decide, by with_unfolding_all decide,
   C10_min_degree [wtrackA, wtrackB] wgraphAB (by with_unfolding_all decide)
     (by with_unfolding_all decide) 0 (by with_unfolding_all decide)⟩

/-- C2 counterexample: the claim says an item with a more negative raw
loudness than the maximum normalizes to a value strictly greater than 0; on
the code, `wtrackB` (raw −10, versus maximum −1) normalizes to −9 < 0. -/
theorem C2_counterexample :
    wtrackB.loudness < wtrackA.loudness ∧
      _normalize_features [wtrackA, wtrackB] = some c2nodes ∧
      (getNode c2nodes 1).loudness_dimention = -9 ∧
      ¬ (0 < (getNode c2nodes 1).loudness_dimention) := by
  with_unfolding_all decide

/-- C2 as amended: for a non-empty item set with all loudness values
strictly negative, the item whose raw loudness is the maximum normalizes to
exactly 0, every item with a more negative raw loudness normalizes to a
value strictly less than 0, and more-negative raw values yield strictly
smaller (more negative, larger in absolute value) normalized values. -/
theorem C2_negative_normalization (t : Track) (ts : List Track)
    (ns : List TrackNode) (h : _normalize_features (t :: ts) = some ns)
    (hneg : ∀ u ∈ t :: ts, u.loudness < 0) (k : Nat) (hk : k < ns.length) :
    ((getTrack (t :: ts) k).loudness = max_loudness t ts →
      (getNode ns k).loudness_dimention = 0) ∧
    ((getTrack (t :: ts) k).loudness < max_loudness t ts →
      (getNode ns k).loudness_dimention < 0) ∧
    (∀ k', k' < ns.length →
      (getTrack (t :: ts) k).loudness < (getTrack (t :: ts) k').loudness →
      (getNode ns k).loudness_dimention < (getNode ns k').loudness_dimention) := by
  have hmL : max_loudness t ts < 0 := max_loudness_neg hneg
  have hpos : 0 < -max_loudness t ts := by linarith
  have hdim : ∀ m, m < ns.length → (getNode ns m).loudness_dimention
      = ((getTrack (t :: ts) m).loudness - max_loudness t ts) / -max_loudness t ts := by
    intro m hm
    rw [getNode_normalize h hm]
    rfl
  refine ⟨?_, ?_, ?_⟩
  · intro he
    rw [hdim k hk, he, sub_self, zero_div]
  · intro hlt
    rw [hdim k hk]
    exact div_neg_of_neg_of_pos (by linarith) hpos
  · intro k' hk' hlt
    rw [hdim k hk, hdim k' hk']
    rw [div_lt_div_iff₀ hpos hpos]
    have := mul_lt_mul_of_pos_right
      (sub_lt_sub_right hlt (max_loudness t ts)) hpos
    linarith

/-- C2 witness: on `[wtrackA, wtrackB]` the more-negative item's normalized
loudness is strictly negative. -/
theorem C2_witness :
    (∀ u ∈ [wtrackA, wtrackB], u.loudness < 0) ∧
      (getNode c2nodes 1).loudness_dimention < 0 :=
  ⟨by with_unfolding_all decide,
   (C2_negative_normalization wtrackA [wtrackB] c2nodes
     (by with_unfolding_all decide) (by with_unfolding_all decide) 1
     (by with_unfolding_all decide)).2.1 (by with_unfolding_all decide)⟩

/-- C3: the claim says normalization is guarded against a zero maximum
loudness; in the code `(track.loudness - max_loudness) / -max_loudness` has
no guard, so with a single all-zero track (maximum loudness 0) the call
raises `ZeroDivisionError` (modelled: returns `none`) instead of yielding 0
for every item.  The five ratio dimensions are guarded; loudness is not. -/
theorem C3_loudness_guard_missing :
    max_loudness zeroTrack [] = 0 ∧ _normalize_features [zeroTrack] = none := by
  with_unfolding_all decide

theorem ratio_dim_block {t : Track} {ts : List Track} {ns : List TrackNode}
    (h : _normalize_features (t :: ts) = some ns) (f : Track → ℚ)
    (g : TrackNode → ℚ)
    (hdim : ∀ k, k < ns.length → g (getNode ns k)
      = if foldMaxQ f 0 (t :: ts) = 0 then 0
        else f (getTrack (t :: ts) k) / foldMaxQ f 0 (t :: ts))
    (hnn : ∀ u ∈ t :: ts, 0 ≤ f u) (k : Nat) (hk : k < ns.length) :
    0 ≤ g (getNode ns k) ∧ g (getNode ns k) ≤ 1 ∧
      (foldMaxQ f 0 (t :: ts) = 0 → g (getNode ns k) = 0) ∧
      (foldMaxQ f 0 (t :: ts) ≠ 0 → f (getTrack (t :: ts) k) = foldMaxQ f 0 (t :: ts) →
        g (getNode ns k) = 1) := by
  have hk' : k < (t :: ts).length := by
    rw [← normalize_length h]
    exact hk
  have hmem : getTrack (t :: ts) k ∈ t :: ts := getTrack_mem hk'
  have h0 : 0 ≤ f (getTrack (t :: ts) k) := hnn _ hmem
  have hle : f (getTrack (t :: ts) k) ≤ foldMaxQ f 0 (t :: ts) :=
    le_foldMaxQ f (t :: ts) 0 _ hmem
  have hm : 0 ≤ foldMaxQ f 0 (t :: ts) := foldMaxQ_zero_nonneg f (t :: ts)
  obtain ⟨p1, p2, p3, p4⟩ := ratio_val_props h0 hle hm
  rw [hdim k hk]
  exact ⟨p1, p2, p3, p4⟩

/-- C7: for every non-empty item set, each ratio-normalized dimension
(energy, instrumentalness, tempo, valence, danceability) whose raw values
are all nonnegative has every normalized value in `[0, 1]`, with an item
attaining the maximum raw value normalizing to exactly 1; in the degenerate
case where the (zero-initialized) maximum is 0, the normalized value is 0
for every item and no division by zero occurs. -/
theorem C7_ratio_normalization (t : Track) (ts : List Track)
    (ns : List TrackNode) (h : _normalize_features (t :: ts) = some ns) :
    ((∀ u ∈ t :: ts, 0 ≤ u.energy) → ∀ k, k < ns.length →
      0 ≤ (getNode ns k).energy_dimention ∧ (getNode ns k).energy_dimention ≤ 1 ∧
      (max_energy (t :: ts) = 0 → (getNode ns k).energy_dimention = 0) ∧
      (max_energy (t :: ts) ≠ 0 →
        (getTrack (t :: ts) k).energy = max_energy (t :: ts) →
        (getNode ns k).energy_dimention = 1)) ∧
    ((∀ u ∈ t :: ts, 0 ≤ u.instrumentalness) → ∀ k, k < ns.length →
      0 ≤ (getNode ns k).instrumentalness_dimention ∧
      (getNode ns k).instrumentalness_dimention ≤ 1 ∧
      (max_instrumentalness (t :: ts) = 0 →
        (getNode ns k).instrumentalness_dimention = 0) ∧
      (max_instrumentalness (t :: ts) ≠ 0 →
        (getTrack (t :: ts) k).instrumentalness = max_instrumentalness (t :: ts) →
        (getNode ns k).instrumentalness_dimention = 1)) ∧
    ((∀ u ∈ t :: ts, 0 ≤ u.tempo) → ∀ k, k < ns.length →
      0 ≤ (getNode ns k).tempo_dimention ∧ (getNode ns k).tempo_dimention ≤ 1 ∧
      (max_tempo (t :: ts) = 0 → (getNode ns k).tempo_dimention = 0) ∧
      (max_tempo (t :: ts) ≠ 0 →
        (getTrack (t :: ts) k).tempo = max_tempo (t :: ts) →
        (getNode ns k).tempo_dimention = 1)) ∧
    ((∀ u ∈ t :: ts, 0 ≤ u.valence) → ∀ k, k < ns.length →
      0 ≤ (getNode ns k).valence_dimention ∧ (getNode ns k).valence_dimention ≤ 1 ∧
      (max_valence (t :: ts) = 0 → (getNode ns k).valence_dimention = 0) ∧
      (max_valence (t :: ts) ≠ 0 →
        (getTrack (t :: ts) k).valence = max_valence (t :: ts) →
        (getNode ns k).valence_dimention = 1)) ∧
    ((∀ u ∈ t :: ts, 0 ≤ u.danceability) → ∀ k, k < ns.length →
      0 ≤ (getNode ns k).danceability_dimention ∧
      (getNode ns k).danceability_dimention ≤ 1 ∧
      (max_danceability (t :: ts) = 0 → (getNode ns k).danceability_dimention = 0) ∧
      (max_danceability (t :: ts) ≠ 0 →
        (getTrack (t :: ts) k).danceability = max_danceability (t :: ts) →
        (getNode ns k).danceability_dimention = 1)) := by
  refine ⟨fun hnn k hk => ?_, fun hnn k hk => ?_, fun hnn k hk => ?_,
    fun hnn k hk => ?_, fun hnn k hk => ?_⟩
  · exact ratio_dim_block h (fun u => u.energy) (fun nd => nd.energy_dimention)
      (fun m hm => by rw [getNode_normalize h hm]; rfl) hnn k hk
  · exact ratio_dim_block h (fun u => u.instrumentalness)
      (fun nd => nd.instrumentalness_dimention)
      (fun m hm => by rw [getNode_normalize h hm]; rfl) hnn k hk
  · exact ratio_dim_block h (fun u => u.tempo) (fun nd => nd.tempo_dimention)
      (fun m hm => by rw [getNode_normalize h hm]; rfl) hnn k hk
  · exact ratio_dim_block h (fun u => u.valence) (fun nd => nd.valence_dimention)
      (fun m hm => by rw [getNode_normalize h hm]; rfl) hnn k hk
  · exact ratio_dim_block h (fun u => u.danceability)
      (fun nd => nd.danceability_dimention)
      (fun m hm => by rw [getNode_normalize h hm]; rfl) hnn k hk

/-- C7 witness: on `[wtrackA, wtrackB]` the energy dimension of the
maximum-energy item is exactly 1 and node 0's energy dimension lies in
`[0, 1]`. -/
theorem C7_witness :
    (∀ u ∈ [wtrackA, wtrackB], 0 ≤ u.energy) ∧
      0 ≤ (getNode c2nodes 0).energy_dimention ∧
      (getNode c2nodes 0).energy_dimention ≤ 1 :=
  ⟨by with_unfolding_all decide,
   ((C7_ratio_normalization wtrackA [wtrackB] c2nodes
      (by with_unfolding_all decide)).1 (by with_unfolding_all decide) 0
      (by with_unfolding_all decide)).1,
   ((C7_ratio_normalization wtrackA [wtrackB] c2nodes
      (by with_unfolding_all decide)).1 (by with_unfolding_all decide) 0
      (by with_unfolding_all decide)).2.1⟩

/-- C8 counterexample: the claim asserts a single-item set always yields a
one-node graph with no exception, but a singleton whose loudness is 0 makes
the unguarded loudness normalization raise (construction returns `none`). -/
theorem C8_counterexample : mkTracksGraph [zeroTrack] = none := by
  with_unfolding_all decide

/-- C8 as amended: construction on the empty item set produces a graph with
0 nodes, raises no exception, and the connectivity check returns true;
construction on a single-item set whose loudness is nonzero produces a graph
with exactly 1 node, an empty neighbour set, and a connectivity check of
true (a singleton with loudness exactly 0 instead raises in normalization,
see the counterexample). -/
theorem C8_empty_and_singleton :
    (mkTracksGraph [] = some [] ∧ is_connected [] = true) ∧
    (∀ t : Track, t.loudness ≠ 0 →
      (mkTracksGraph [t]).map List.length = some 1 ∧
      (mkTracksGraph [t]).map (fun g => g.map (fun nd => nd.neighbours)) = some [[]] ∧
      (mkTracksGraph [t]).map is_connected = some true) := by
  constructor
  · exact ⟨by with_unfolding_all decide, by with_unfolding_all decide⟩
  · intro t ht
    have hml : max_loudness t [] = t.loudness := by
      unfold max_loudness foldMaxQ
      simp
    have hn : _normalize_features [t] = some [normalizeTrack (max_loudness t [])
        (max_energy [t]) (max_instrumentalness [t]) (max_tempo [t])
        (max_valence [t]) (max_danceability [t]) t] :=
      normalize_some_iff.mpr ⟨by rw [hml]; exact ht, rfl⟩
    have hnode : (normalizeTrack (max_loudness t []) (max_energy [t])
        (max_instrumentalness [t]) (max_tempo [t]) (max_valence [t])
        (max_danceability [t]) t).neighbours = [] := rfl
    have hb := build_graph_singleton defaultMask _ hnode
    have hg : mkTracksGraph [t] = some [normalizeTrack (max_loudness t [])
        (max_energy [t]) (max_instrumentalness [t]) (max_tempo [t])
        (max_valence [t]) (max_danceability [t]) t] := by
      unfold mkTracksGraph
      rw [hn, Option.map_some', hb]
    rw [hg]
    refine ⟨rfl, ?_, ?_⟩
    · rw [Option.map_some']
      rw [List.map_singleton, hnode]
    · rw [Option.map_some', is_connected_singleton _ hnode]

/-- C8 witness: a singleton with loudness −1 builds a one-node connected
graph with no neighbours. -/
theorem C8_witness :
    wtrackA.loudness ≠ 0 ∧
      ((mkTracksGraph [wtrackA]).map List.length = some 1 ∧
       (mkTracksGraph [wtrackA]).map (fun g => g.map (fun nd => nd.neighbours))
         = some [[]] ∧
       (mkTracksGraph [wtrackA]).map is_connected = some true) :=
  ⟨by with_unfolding_all decide,
   C8_empty_and_singleton.2 wtrackA (by with_unfolding_all decide)⟩

set_option maxRecDepth 100000 in
/-- C4: on the two-cluster item set the k=2 nearest-neighbour pass produces
two disconnected triangles `{0,1,2}` and `{3,4,5}`; the repair pass adds
exactly one cross-cluster edge (between nodes 2 and 3: the first unvisited
node anchors to the closest visited node, and the later far-cluster nodes
anchor to the already-repaired node 3, which is already their neighbour,
adding nothing), and the result is connected with exactly one edge joining
the two original components. -/
theorem C4_repair_single_cross_edge :
    (_normalize_features c4tracks).map
        (fun ns => (knnPass defaultMask ns).map (fun nd => nd.neighbours))
      = some [[1, 2], [0, 2], [0, 1], [4, 5], [3, 5], [3, 4]] ∧
    (_normalize_features c4tracks).map
        (fun ns => is_connected (knnPass defaultMask ns)) = some false ∧
    (mkTracksGraph c4tracks).map (fun g => g.map (fun nd => nd.neighbours))
      = some [[1, 2], [0, 2], [0, 1, 3], [4, 5, 2], [3, 5], [3, 4]] ∧
    (mkTracksGraph c4tracks).map is_connected = some true ∧
    (mkTracksGraph c4tracks).map (fun g =>
        (((List.range 3).map
          (fun i => ((nbr g i).filter (fun j => 3 ≤ j)).length)).sum,
         ((List.range 3).map
          (fun i => ((nbr g (3 + i)).filter (fun j => j < 3)).length)).sum))
      = some (1, 1) := by
  with_unfolding_all decide
